import Mathlib

/-!
Verification development for the blog-post sync script (`scripts/sync-posts.js`)
and the rendering layer sorter (`src/utils/postSorting.ts`) of the repository.

The JavaScript/TypeScript sources are shallowly embedded:
* strings are Lean `String`s, but every operation is implemented on the
  underlying `List Char` so that all definitions compute by kernel reduction;
* JS objects holding post metadata become the `Post` structure, where an
  `Option` field models a possibly-absent JS property and JS truthiness of a
  string field is `some s` with `s ≠ ""` (an empty JS string is falsy, while a
  JS array — even an empty one — is truthy);
* regular expressions are translated into explicit character-list scanners
  that reproduce the anchoring, greediness and backtracking behaviour of the
  concrete patterns appearing in the source;
* `String.prototype.localeCompare` is modelled as code-point lexicographic
  comparison (all data handled by the script is ASCII), and
  `Array.prototype.sort` with a consistent comparator is modelled as a stable
  sort (insertion sort); for a consistent comparator any stable sort produces
  the same output as the engine's stable sort;
* file-system state is a list of `RawFile` records, and the file-modification
  date consulted by `getFileDate` is carried as the `mtimeDate` field.
-/

/-- JS code-point comparison of two characters, as used by `localeCompare`
on ASCII data and by `<` on numbers-as-strings. -/
def charListCmp : List Char → List Char → Ordering
  | [], [] => Ordering.eq
  | [], _ :: _ => Ordering.lt
  | _ :: _, [] => Ordering.gt
  | a :: as, b :: bs =>
    if a.toNat < b.toNat then Ordering.lt
    else if b.toNat < a.toNat then Ordering.gt
    else charListCmp as bs

/-- Model of `a.localeCompare(b)` (sign only): code-point lexicographic order. -/
def strCmpJS (a b : String) : Ordering := charListCmp a.data b.data

/-- Sign of the numeric comparator value `a - b` for integers. -/
def intCmp (a b : Int) : Ordering :=
  if a < b then Ordering.lt else if a = b then Ordering.eq else Ordering.gt

/-- Model of `String.prototype.split` with a single-character separator
(every `split` in the source uses a one-character separator). -/
def splitOnChar (sep : Char) : List Char → List (List Char)
  | [] => [[]]
  | c :: rest =>
    if c = sep then [] :: splitOnChar sep rest
    else
      match splitOnChar sep rest with
      | h :: t => (c :: h) :: t
      | [] => [[c]]

/-- Lines of a string, as produced by `content.split('\n')`. -/
def strLines (s : String) : List String := (splitOnChar '\n' s.data).map String.mk

/-- Model of `Array.prototype.join(sep)` for a one-character separator. -/
def joinChar (sep : Char) (ls : List String) : String :=
  String.mk (List.intercalate [sep] (ls.map String.data))

/-- Model of `String.prototype.trim` (leading and trailing whitespace removed). -/
def strTrim (s : String) : String :=
  String.mk (((s.data.dropWhile Char.isWhitespace).reverse.dropWhile Char.isWhitespace).reverse)

/-- Model of `String.prototype.startsWith`. -/
def strStartsWith (s pre : String) : Bool := pre.data.isPrefixOf s.data

/-- Model of `String.prototype.endsWith`. -/
def strEndsWith (s suf : String) : Bool := suf.data.isSuffixOf s.data

/-- Model of `String.prototype.slice(1)` (drop the first UTF-16 unit; all the
data handled by the script is ASCII, where units and characters coincide). -/
def strDrop (s : String) (n : Nat) : String := String.mk (s.data.drop n)

/-- Model of a `slice` that removes the final `n` units. -/
def strDropRight (s : String) (n : Nat) : String :=
  String.mk (s.data.take (s.data.length - n))

/-- Model of `String.prototype.includes` for a single character. -/
def strContainsChar (s : String) (c : Char) : Bool := s.data.contains c

/-- Model of `str.length` (UTF-16 length; equal to the character count on the
ASCII data handled by the script). -/
def strLength (s : String) : Nat := s.data.length

/-- Non-overlapping occurrence test: model of `String.prototype.includes`. -/
def hasSubstr (pat : List Char) : List Char → Bool
  | [] => pat.isEmpty
  | c :: rest => pat.isPrefixOf (c :: rest) || hasSubstr pat rest

/-- Number of non-overlapping matches of an escaped (hence literal) pattern,
as counted by `content.match(new RegExp(escaped, 'gi'))` on already-lowercased
content with a nonempty lowercase pattern. -/
def countOccs (pat : List Char) : List Char → Nat
  | [] => 0
  | c :: rest =>
    if pat.isPrefixOf (c :: rest) ∧ pat ≠ [] then
      1 + countOccs pat (rest.drop (pat.length - 1))
    else
      countOccs pat rest
termination_by cs => cs.length
decreasing_by
  all_goals simp only [List.length_drop, List.length_cons]
  all_goals omega

/-- Lowercasing, modelling `String.prototype.toLowerCase` on ASCII data. -/
def lowerStr (s : String) : String := String.mk (s.data.map Char.toLower)

/-- JS string truthiness chain `a || b`: an empty string is falsy. -/
def jsStrOr (a b : String) : String := if a = "" then b else a

/-- The string of an optional value, with JS `null`/`undefined` being falsy
(represented by the empty string for `||`-chaining purposes). -/
def optStr : Option String → String
  | some s => s
  | none => ""

/-- A parsed metadata value: string, list of strings, or `null`.
JS values of other shapes do not arise from `parseValue`. -/
inductive JVal where
  | jstr : String → JVal
  | jlist : List String → JVal
  | jnull : JVal
deriving DecidableEq

/-- JS truthiness of a parsed metadata value: a nonempty string or any array
(including the empty array) is truthy; `null` and `""` are falsy. -/
def jvalTruthy : JVal → Bool
  | JVal.jstr s => s ≠ ""
  | JVal.jlist _ => true
  | JVal.jnull => false

/-- Assignment `data[key] = value` on a JS object, modelled as an association
list where the last binding for a key wins. -/
def jset (m : List (String × JVal)) (k : String) (v : JVal) : List (String × JVal) :=
  m ++ [(k, v)]

/-- Property lookup on the object model (last binding wins). -/
def jget (m : List (String × JVal)) (k : String) : Option JVal :=
  (m.reverse.find? (fun kv => kv.1 = k)).map (·.2)

/-- Lookup of a property that the script consumes as a string; a non-string
value (an array) would make the script misbehave or throw, and is treated as
absent here (this is the only intended shape per the metadata format). -/
def jgetStr (m : List (String × JVal)) (k : String) : Option String :=
  match jget m k with
  | some (JVal.jstr s) => some s
  | _ => none

/-- First truthy value of `meta.concepts || meta.tags`. -/
def jvalOr (a b : Option JVal) : Option JVal :=
  match a with
  | some v => if jvalTruthy v then some v else match b with
    | some w => if jvalTruthy w then some w else none
    | none => none
  | none => match b with
    | some w => if jvalTruthy w then some w else none
    | none => none

/-! ### Metadata parsing (`sync-posts.js` lines 51–117) -/

/-- One application of `replace(/^['"]|['"]$/g, '')`: at most one leading and
one trailing quote character are removed. -/
def stripQuotes (s : String) : String :=
  let isQuote : Char → Bool := fun c => c = '\'' || c = '"'
  let t := match s.data with
    | c :: rest => if isQuote c then rest else c :: rest
    | [] => []
  String.mk (match t.getLast? with
    | some c => if isQuote c then t.dropLast else t
    | none => t)

/-- `parseValue` from the sync script: bracketed values become string lists,
quoted values are unquoted, `null` and the empty string become `null`, and
anything else is a literal string. -/
def parseValue (str : String) : JVal :=
  if strStartsWith str "[" && strEndsWith str "]" then
    JVal.jlist ((((splitOnChar ',' (strDropRight (strDrop str 1) 1).data).map String.mk).map
      (fun s => stripQuotes (strTrim s))).filter (fun s => strLength s > 0))
  else if (strStartsWith str "\"" && strEndsWith str "\"") ||
      (strStartsWith str "\'" && strEndsWith str "\'") then
    JVal.jstr (strDropRight (strDrop str 1) 1)
  else if str = "null" || str = "" then JVal.jnull
  else JVal.jstr str

/-- `parseYamlLines`: each `key: value` line of the block contributes a
binding; a line with no colon is skipped, as is one with an empty key. -/
def parseYamlLines (yamlStr : String) : List (String × JVal) :=
  (strLines yamlStr).foldl
    (fun data line =>
      match line.data.findIdx? (· = ':') with
      | none => data
      | some colonIdx =>
        let key := strTrim (String.mk (line.data.take colonIdx))
        let value := parseValue (strTrim (String.mk (line.data.drop (colonIdx + 1))))
        if key ≠ "" then jset data key value else data)
    []

/-- Leftmost match of `pat` in the scanned list subject to a check on the
suffix after the match, mirroring the lazy quantifier with backtracking in
`/^---\n([\s\S]*?)\n---\n?([\s\S]*)$/` and its comment-wrapped variant.
Returns the part before the match and the part after it. -/
def findSubWith (pat : List Char) (check : List Char → Bool) :
    List Char → Option (List Char × List Char)
  | [] =>
    if pat.isPrefixOf ([] : List Char) && check (([] : List Char).drop pat.length) then
      some ([], [])
    else none
  | c :: rest =>
    if pat.isPrefixOf (c :: rest) && check ((c :: rest).drop pat.length) then
      some ([], (c :: rest).drop pat.length)
    else
      (findSubWith pat check rest).map (fun p => (c :: p.1, p.2))

/-- The optional `\n?` after the closing delimiter. -/
def dropOptNewline : List Char → List Char
  | '\n' :: rest => rest
  | cs => cs

/-- Matcher for `/^---\n([\s\S]*?)\n---\n?([\s\S]*)$/`: the content must begin
with `---\n`; the block runs to the first later occurrence of `\n---`, an
optional newline is consumed, and the rest is the body. -/
def yamlPattern1 (cs : List Char) : Option (List Char × List Char) :=
  if ("---\n".data).isPrefixOf cs then
    match findSubWith ("\n---".data) (fun _ => true) (cs.drop 4) with
    | some (inner, after) => some (inner, dropOptNewline after)
    | none => none
  else none

/-- Matcher for `/^<!--\s*---\n([\s\S]*?)\n---\s*-->\n?([\s\S]*)$/`: a
comment opener, whitespace, the delimiter line, then the first `\n---` that is
followed by whitespace and `-->` closes the block. -/
def yamlPattern2 (cs : List Char) : Option (List Char × List Char) :=
  if ("<!--".data).isPrefixOf cs then
    let r1 := (cs.drop 4).dropWhile Char.isWhitespace
    if ("---\n".data).isPrefixOf r1 then
      match findSubWith ("\n---".data)
          (fun a => ("-->".data).isPrefixOf (a.dropWhile Char.isWhitespace)) (r1.drop 4) with
      | some (inner, after) =>
        some (inner, dropOptNewline ((after.dropWhile Char.isWhitespace).drop 3))
      | none => none
    else none
  else none

/-- Result of `parseYamlFrontmatter` / `parseCommentMetadata`: parsed data
plus the body with the metadata block removed. -/
structure Frontmatter where
  data : List (String × JVal)
  body : String
deriving DecidableEq

/-- `parseYamlFrontmatter`: the two patterns are tried in order; a match
yields parsed block lines and the remaining body, otherwise `null`. -/
def parseYamlFrontmatter (content : String) : Option Frontmatter :=
  match yamlPattern1 content.data with
  | some (inner, body) => some ⟨parseYamlLines (String.mk inner), String.mk body⟩
  | none =>
    match yamlPattern2 content.data with
    | some (inner, body) => some ⟨parseYamlLines (String.mk inner), String.mk body⟩
    | none => none

/-- Characters matched by `\w`. -/
def isWordChar (c : Char) : Bool := c.isAlphanum || c = '_'

/-- Match of `/^\/\/\s*(\w+):\s*(.+)$/` on one line, returning the key and the
trimmed captured value (the script always trims the second capture). -/
def commentMetaKV (line : String) : Option (String × String) :=
  match line.data with
  | '/' :: '/' :: rest =>
    let r1 := rest.dropWhile Char.isWhitespace
    let key := r1.takeWhile isWordChar
    if key = [] then none
    else
      match r1.drop key.length with
      | ':' :: rest2 =>
        if rest2 = [] then none
        else some (String.mk key, strTrim (String.mk rest2))
      | _ => none
  | _ => none

/-- Match of the legacy separator `/^\/\/\s*---\s*$/`. -/
def commentSepLine (line : String) : Bool :=
  match line.data with
  | '/' :: '/' :: rest =>
    let r1 := rest.dropWhile Char.isWhitespace
    ("---".data).isPrefixOf r1 && (r1.drop 3).all Char.isWhitespace
  | _ => false

/-- Result of `parseCommentMetadata`, including the collected line indices. -/
structure CommentMeta where
  data : List (String × JVal)
  body : String
  metaLineIndices : List Nat
deriving DecidableEq

/-- `parseCommentMetadata`: collects `// key: value` lines and `// ---`
separator lines, removes exactly those lines (by index) from the body, and
returns `null` when no key was found. -/
def parseCommentMetadata (content : String) : Option CommentMeta :=
  let lines := strLines content
  let enumd := lines.enum
  let data := enumd.foldl
    (fun acc il =>
      match commentMetaKV il.2 with
      | some kv => jset acc kv.1 (parseValue kv.2)
      | none => acc) []
  let metaLineIndices := enumd.foldl
    (fun acc il =>
      (acc ++ (if (commentMetaKV il.2).isSome then [il.1] else [])) ++
        (if commentSepLine il.2 then [il.1] else [])) []
  if data.isEmpty then none
  else
    some ⟨data,
      joinChar '\n' ((enumd.filter (fun il => ¬ il.1 ∈ metaLineIndices)).map (·.2)),
      metaLineIndices⟩

/-! ### Content extraction (`sync-posts.js` lines 123–158) -/

/-- Match of `/^#\s+(.+)$/` on one line: a leading `#`, at least one
whitespace character, and at least one further character; the script trims the
capture, which equals the trimmed remainder after `#` in every match case. -/
def titleLineVal (line : String) : Option String :=
  match line.data with
  | '#' :: c :: rest =>
    if c.isWhitespace ∧ rest ≠ [] then some (strTrim (String.mk (c :: rest))) else none
  | _ => none

/-- Loop body of `extractTitle`: the first heading line whose text has no
colon or is longer than 60 characters wins; other heading lines are skipped. -/
def extractTitleGo : List String → Option String
  | [] => none
  | line :: rest =>
    match titleLineVal line with
    | some title =>
      if ¬ strContainsChar title ':' ∨ strLength title > 60 then some title
      else extractTitleGo rest
    | none => extractTitleGo rest

/-- `extractTitle` from the sync script. -/
def extractTitle (content : String) : Option String :=
  extractTitleGo (strLines content)

/-- Decimal digit as matched by `\d`. -/
def isDigitChar (c : Char) : Bool := 48 ≤ c.toNat && c.toNat ≤ 57

/-- Numeric value of a digit character. -/
def digitVal (c : Char) : Nat := c.toNat - 48

/-- Components of a fixed-width `YYYY-MM-DD` string, i.e. a full match of
`/^\d{4}-\d{2}-\d{2}$/`. -/
def dateParts (s : String) : Option (Nat × Nat × Nat) :=
  match s.data with
  | [y1, y2, y3, y4, h1, m1, m2, h2, d1, d2] =>
    if isDigitChar y1 && isDigitChar y2 && isDigitChar y3 && isDigitChar y4 &&
        (h1 = '-') && isDigitChar m1 && isDigitChar m2 && (h2 = '-') &&
        isDigitChar d1 && isDigitChar d2 then
      some (((digitVal y1 * 10 + digitVal y2) * 10 + digitVal y3) * 10 + digitVal y4,
        digitVal m1 * 10 + digitVal m2, digitVal d1 * 10 + digitVal d2)
    else none
  | _ => none

/-- `String.prototype.padStart(2, '0')`. -/
def padTwo (s : String) : String := if strLength s < 2 then "0" ++ s else s

/-- All characters are digits and the length is between 1 and 2: a full
greedy match of `\d{1,2}` against the whole component. -/
def isShortNum (s : String) : Bool :=
  s.data.all isDigitChar && 1 ≤ strLength s && strLength s ≤ 2

/-- Exactly four digits: a full match of `\d{4}`. -/
def isYearNum (s : String) : Bool := s.data.all isDigitChar && strLength s = 4

/-- `parseDate` from the sync script: `D-M-YYYY` is reordered and padded,
`YYYY-MM-DD` passes through, anything else (including a missing value) is
`null`. -/
def parseDate (dateStr : Option String) : Option String :=
  match dateStr with
  | none => none
  | some s =>
    if s = "" then none
    else
      match (splitOnChar '-' s.data).map String.mk with
      | [d, m, y] =>
        if isShortNum d && isShortNum m && isYearNum y then
          some (y ++ "-" ++ padTwo m ++ "-" ++ padTwo d)
        else if (dateParts s).isSome then some s else none
      | _ => if (dateParts s).isSome then some s else none

/-- Splits a leading digit run of length 1–2 followed by `-`, as matched by
`\d{1,2}-` (the greedy bounded quantifier cannot match when the digit run is
longer, since the following character must be a dash). -/
def takeShortNumDash (cs : List Char) : Option (List Char × List Char) :=
  let run := cs.takeWhile isDigitChar
  if 1 ≤ run.length && run.length ≤ 2 && (cs.drop run.length).headD ' ' = '-' then
    some (run, cs.drop (run.length + 1))
  else none

/-- Splits a leading run of exactly four digits followed by `-` (`\d{4}-`). -/
def takeYearDash (cs : List Char) : Option (List Char × List Char) :=
  let run := cs.takeWhile isDigitChar
  if run.length = 4 && (cs.drop run.length).headD ' ' = '-' then
    some (run, cs.drop (run.length + 1))
  else none

/-- Splits a leading run of exactly two digits followed by `-` (`\d{2}-`). -/
def takeTwoDash (cs : List Char) : Option (List Char × List Char) :=
  let run := cs.takeWhile isDigitChar
  if run.length = 2 && (cs.drop run.length).headD ' ' = '-' then
    some (run, cs.drop (run.length + 1))
  else none

/-- Match of the anchored pattern `^(\d{4}-\d{2}-\d{2})-` against a filename,
returning the captured date. -/
def ymdPrefixCapture (cs : List Char) : Option (String × List Char) :=
  match takeYearDash cs with
  | some (y, r1) =>
    match takeTwoDash r1 with
    | some (m, r2) =>
      match takeTwoDash r2 with
      | some (d, r3) =>
        some (String.mk y ++ "-" ++ String.mk m ++ "-" ++ String.mk d, r3)
      | none => none
    | none => none
  | none => none

/-- Match of the anchored pattern `^(\d{1,2})-(\d{1,2})-(\d{4})-` against a filename. -/
def dmyPrefixCapture (cs : List Char) : Option (String × String × String × List Char) :=
  match takeShortNumDash cs with
  | some (d, r1) =>
    match takeShortNumDash r1 with
    | some (m, r2) =>
      let run := r2.takeWhile isDigitChar
      if run.length = 4 && (r2.drop run.length).headD ' ' = '-' then
        some (String.mk d, String.mk m, String.mk run, r2.drop (run.length + 1))
      else none
    | none => none
  | none => none

/-- `extractDateFromFilename` from the sync script. -/
def extractDateFromFilename (filename : String) : Option String :=
  match ymdPrefixCapture filename.data with
  | some (ymd, _) => some ymd
  | none =>
    match dmyPrefixCapture filename.data with
    | some (d, m, y, _) => some (y ++ "-" ++ padTwo m ++ "-" ++ padTwo d)
    | none => none

/-- `removeDatePrefix` from the sync script: the `YYYY-MM-DD-` replacement is
applied first, then the `D-M-YYYY-` replacement is applied to its result. -/
def removeDatePrefix (filename : String) : String :=
  let s1 := match ymdPrefixCapture filename.data with
    | some (_, rest) => rest
    | none => filename.data
  String.mk (match dmyPrefixCapture s1 with
    | some (_, _, _, rest) => rest
    | none => s1)

/-- `filename.replace(/\.md$/, '')`. -/
def stripMd (s : String) : String :=
  if strEndsWith s ".md" then strDropRight s 3 else s

/-! ### Tag inference and title formatting (`sync-posts.js` lines 164–232) -/

/-- `LANGUAGE_PATTERNS` from the sync script. -/
def LANGUAGE_PATTERNS : List (String × List String) :=
  [("rust", ["rust", "cargo", ".rs", "borrow checker", "impl "]),
   ("c++", ["c++", "cpp", "unique_ptr", "shared_ptr", "std::", "template<"]),
   ("python", ["python", "def ", "import ", ".py"]),
   ("javascript", ["javascript", "node.js", ".js"])]

/-- `TOPIC_PATTERNS` from the sync script. -/
def TOPIC_PATTERNS : List (String × List String) :=
  [("performance", ["performance", "optimization", "faster", "benchmark"]),
   ("memory", ["memory management", "heap", "stack allocation", "raii"]),
   ("data-structures", ["btree", "hash map", "linked list", "inverted index"]),
   ("parsing", ["recursive descent", "lexer", "tokeniz", "ast"]),
   ("assembly", ["asm!", "asm(", "assembly", "opcode"]),
   ("compilers", ["llvm", "codegen", "code generation"])]

/-- Score of one language category: 10 per pattern contained in the title,
plus the number of (non-overlapping, literal) occurrences in the content. -/
def langScore (lowerContent lowerTitle : String) (patterns : List String) : Nat :=
  patterns.foldl
    (fun score p =>
      (score + (if hasSubstr p.data lowerTitle.data then 10 else 0)) +
        countOccs p.data lowerContent.data) 0

/-- Insertion into a JS `Set` (insertion order preserved, duplicates dropped). -/
def addUnique (l : List String) (x : String) : List String :=
  if x ∈ l then l else l ++ [x]

/-- `inferTags` from the sync script: the top two language categories scoring
above 2 (stable-sorted descending by score), then every topic category with a
pattern present in content or title, capped at 4 tags. -/
def inferTags (content : String) (title : String) : List String :=
  let lowerContent := lowerStr content
  let lowerTitle := lowerStr title
  let langScores := LANGUAGE_PATTERNS.map
    (fun tp => (tp.1, langScore lowerContent lowerTitle tp.2))
  let top := ((langScores.filter (fun ts => ts.2 > 2)).insertionSort
    (fun a b => b.2 ≤ a.2)).take 2
  let tags0 := top.foldl (fun acc ts => addUnique acc ts.1) []
  let tags1 := TOPIC_PATTERNS.foldl
    (fun acc tp =>
      if tp.2.any (fun p => hasSubstr p.data lowerContent.data ||
          hasSubstr p.data lowerTitle.data) then
        addUnique acc tp.1
      else acc) tags0
  tags1.take 4

/-- `TITLE_UPPERCASE` from the sync script. -/
def TITLE_UPPERCASE : List (String × String) :=
  [("c++", "C++"), ("asm", "ASM"), ("btree", "BTree"), ("btrees", "BTrees"),
   ("gpu", "GPU"), ("cpu", "CPU"), ("api", "API"), ("llvm", "LLVM"), ("ir", "IR"),
   ("ast", "AST"), ("json", "JSON"), ("html", "HTML"), ("css", "CSS")]

/-- `TITLE_LOWERCASE` from the sync script. -/
def TITLE_LOWERCASE : List String :=
  ["a", "an", "the", "and", "but", "or", "for", "nor",
   "on", "at", "to", "by", "with", "in", "of", "vs"]

/-- `word.charAt(0).toUpperCase() + word.slice(1).toLowerCase()` (ASCII). -/
def capitalizeJS (w : String) : String :=
  match w.data with
  | [] => ""
  | c :: rest => String.mk (c.toUpper :: rest.map Char.toLower)

/-- `formatTitle` from the sync script. -/
def formatTitle (text : String) : String :=
  joinChar ' '
    (((splitOnChar ' ' text.data).map String.mk).enum.map
      (fun iw =>
        let lower := lowerStr iw.2
        match (TITLE_UPPERCASE.find? (fun kv => kv.1 = lower)).map (·.2) with
        | some u => u
        | none =>
          if iw.1 > 0 ∧ lower ∈ TITLE_LOWERCASE then lower else capitalizeJS iw.2))

/-! ### The post data model (spec §3; `src/types/post.ts`) -/

/-- A manifest entry. An `Option` field is an absent JS property when `none`.
`extra` carries any further properties (for example `draft`), which the sync
script never reads or writes; `draft` is kept as its own field since the
rendering layer declares it. -/
structure Post where
  slug : String := ""
  title : Option String := none
  date : Option String := none
  tags : Option (List String) := none
  description : Option String := none
  sourceRepo : Option String := none
  prerequisites : Option (List String) := none
  lastUpdated : Option String := none
  draft : Option Bool := none
  extra : List (String × String) := []
deriving DecidableEq

/-- An on-disk content file. `mtimeDate` is the date portion of the file's
modification time as returned by `getFileDate`. -/
structure RawFile where
  filename : String
  content : String
  mtimeDate : String
deriving DecidableEq

/-- Result of `extractMetadataFromFile`. The `body` field is the internal
`body` value of the function (the spec's `ExtractedMetadata.body`: content
with the metadata block removed), exposed here for verification. -/
structure Extracted where
  postData : Post
  hasMetadata : Bool
  originalContent : String
  body : String
deriving DecidableEq

/-- `p.replace(/^.*\//, '').replace(/\.md$/, '')` on a prerequisite entry:
everything up to the last slash is dropped, then a `.md` suffix is dropped. -/
def prereqBasename (p : String) : String :=
  stripMd (((splitOnChar '/' p.data).map String.mk).getLastD p)

/-- Global replacement of each dash by a space (used in the filename-derived title). -/
def dashesToSpaces (s : String) : String :=
  String.mk (s.data.map (fun c => if c = '-' then ' ' else c))

/-- `tag.replace(/_/g, '-')`. -/
def underscoresToDashes (s : String) : String :=
  String.mk (s.data.map (fun c => if c = '_' then '-' else c))

/-- `extractMetadataFromFile` from the sync script (lines 252–293). The
object-truthiness of `yaml?.data` makes `meta` the parsed mapping whenever a
frontmatter block matched, even an empty mapping, while the string-truthiness
of `yaml?.body` makes the body fall back when the stripped body is empty. -/
def extractMetadataFromFile (file : RawFile) : Extracted :=
  let content := file.content
  let filename := file.filename
  let yaml := parseYamlFrontmatter content
  let comments := parseCommentMetadata content
  let meta : List (String × JVal) :=
    match yaml with
    | some y => y.data
    | none =>
      match comments with
      | some c => c.data
      | none => []
  let body : String :=
    jsStrOr (match yaml with | some y => y.body | none => "")
      (jsStrOr (match comments with | some c => c.body | none => "") content)
  let title :=
    jsStrOr (optStr (jgetStr meta "title"))
      (jsStrOr (optStr (extractTitle body))
        (formatTitle (dashesToSpaces (stripMd (removeDatePrefix filename)))))
  let date :=
    jsStrOr (optStr (parseDate (jgetStr meta "created")))
      (jsStrOr (optStr (parseDate (jgetStr meta "date")))
        (jsStrOr (optStr (extractDateFromFilename filename)) file.mtimeDate))
  let tags : List String :=
    match jvalOr (jget meta "concepts") (jget meta "tags") with
    | some (JVal.jlist l) => l
    | some (JVal.jstr s) => [s]
    | _ => inferTags content title
  let normalizedTags := (tags.map underscoresToDashes).take 5
  let slugBase := removeDatePrefix (stripMd filename)
  { postData :=
      { slug := date ++ "-" ++ slugBase
        title := some title
        date := some date
        tags := some normalizedTags
        description := match jgetStr meta "description" with
          | some s => if s ≠ "" then some s else none
          | none => none
        sourceRepo := match jgetStr meta "source_repo" with
          | some s => if s ≠ "" then some s else none
          | none => none
        prerequisites := match jget meta "prerequisites" with
          | some (JVal.jlist l) =>
            if l.length > 0 then
              some ((l.map prereqBasename).filter (fun p => strLength p > 0))
            else none
          | _ => none
        lastUpdated := match jgetStr meta "last_updated" with
          | some s => if s ≠ "" then parseDate (some s) else none
          | none => none }
    hasMetadata := yaml.isSome || comments.isSome
    originalContent := content
    body := body }

/-! ### Reconciliation (`sync-posts.js` lines 295–391) -/

/-- `REQUIRED_FIELDS` from the sync script. -/
def REQUIRED_FIELDS : List String := ["slug", "title", "date", "tags"]

/-- JS truthiness of an optional string property. -/
def truthyStr : Option String → Bool
  | none => false
  | some s => s ≠ ""

/-- JS truthiness of an optional array property: any array is truthy. -/
def truthyList : Option (List String) → Bool
  | none => false
  | some _ => true

/-- Truthiness of the field named `f` of an entry (`!existing[field]`
negated). Only the required fields are consulted through this table. -/
def getFieldTruthy (e : Post) (f : String) : Bool :=
  if f = "slug" then e.slug ≠ ""
  else if f = "title" then truthyStr e.title
  else if f = "date" then truthyStr e.date
  else if f = "tags" then truthyList e.tags
  else false

/-- `hasMissingFields` from the sync script. -/
def hasMissingFields (existing : Post) : Bool :=
  REQUIRED_FIELDS.any (fun f => ¬ getFieldTruthy existing f)

/-- One step of the merge loop `if (!merged[field] && extracted[field])
merged[field] = extracted[field]` for a string-valued field. -/
def mergeStrField (ex ext : Option String) : Option String :=
  if ¬ truthyStr ex ∧ truthyStr ext then ext else ex

/-- The same merge step for an array-valued field. -/
def mergeListField (ex ext : Option (List String)) : Option (List String) :=
  if ¬ truthyList ex ∧ truthyList ext then ext else ex

/-- `mergePostData` from the sync script: starting from a copy of the existing
entry, each required field (`slug`, `title`, `date`, `tags`) and each optional
field (`description`, `sourceRepo`, `prerequisites`, `lastUpdated`) is filled
from the extraction only when the existing value is falsy and the extracted
one truthy. All other properties of the copy are untouched. -/
def mergePostData (existing extracted : Post) : Post :=
  { existing with
    slug := if existing.slug = "" ∧ extracted.slug ≠ "" then extracted.slug else existing.slug
    title := mergeStrField existing.title extracted.title
    date := mergeStrField existing.date extracted.date
    tags := mergeListField existing.tags extracted.tags
    description := mergeStrField existing.description extracted.description
    sourceRepo := mergeStrField existing.sourceRepo extracted.sourceRepo
    prerequisites := mergeListField existing.prerequisites extracted.prerequisites
    lastUpdated := mergeStrField existing.lastUpdated extracted.lastUpdated }

/-- The CLI flags of the script, read once at startup. -/
structure Config where
  dryRun : Bool := false
  noRename : Bool := false
  stripMeta : Bool := false
  force : Bool := false
deriving DecidableEq

/-- Result of `processPost`. `sharedRef` is a model artifact recording JS
object identity: in the no-extraction branch the script sets
`postData = existing` without copying, so the post's data *is* the manifest
object found under `existingSlug`; later in-place slug mutations through one
alias are visible through every alias. `sharedRef` is that key, and `none`
for the merge/fresh branches, which build new objects. -/
structure ProcessedPost where
  filename : String
  newFilename : String
  postData : Post
  needsRename : Bool
  needsExtraction : Bool
  existingSlug : Option String
  hasMetadata : Bool
  originalContent : String
  sharedRef : Option String
deriving DecidableEq

/-- The candidate-slug search of `processPost` (lines 326–340): the filename
stem, then `{dateFromFilename}-{slugBase}` when a date prefix parses, then the
slug base alone; empty candidates are dropped by `.filter(Boolean)`, and the
first candidate present in the previous manifest wins. -/
def findExistingEntry (lookup : String → Option Post) (filename : String) :
    Option (String × Post) :=
  let slugBase := removeDatePrefix (stripMd filename)
  let dateFromFilename := extractDateFromFilename filename
  let possibleSlugs :=
    ([some (stripMd filename),
      dateFromFilename.map (fun d => d ++ "-" ++ slugBase),
      some slugBase].filterMap id).filter (fun s => s ≠ "")
  possibleSlugs.foldr
    (fun s acc => match lookup s with
      | some e => some (s, e)
      | none => acc) none

/-- `processPost` from the sync script (lines 320–379). -/
def processPost (cfg : Config) (lookup : String → Option Post) (file : RawFile) :
    ProcessedPost :=
  let filename := file.filename
  let slugBase := removeDatePrefix (stripMd filename)
  let found := findExistingEntry lookup filename
  let needsExtraction := cfg.force ||
    (match found with
     | some se => hasMissingFields se.2
     | none => true)
  let branch : Post × Bool × String × Option String :=
    if needsExtraction then
      let ex := extractMetadataFromFile file
      match found with
      | some se =>
        if cfg.force then (ex.postData, ex.hasMetadata, ex.originalContent, none)
        else (mergePostData se.2 ex.postData, ex.hasMetadata, ex.originalContent, none)
      | none => (ex.postData, ex.hasMetadata, ex.originalContent, none)
    else
      match found with
      | some se =>
        (se.2,
          (parseYamlFrontmatter file.content).isSome ||
            (parseCommentMetadata file.content).isSome,
          file.content, some se.1)
      | none => (⟨"", none, none, none, none, none, none, none, none, []⟩, false, "", none)
  let postData := branch.1
  let newFilename := (match postData.date with
    | some d => d
    | none => "undefined") ++ "-" ++ slugBase ++ ".md"
  { filename := filename
    newFilename := newFilename
    postData := postData
    needsRename := filename ≠ newFilename
    needsExtraction := needsExtraction
    existingSlug := found.map (·.1)
    hasMetadata := branch.2.1
    originalContent := branch.2.2.1
    sharedRef := branch.2.2.2 }

/-- `stripMetadata` from the sync script (lines 381–391). -/
def stripMetadata (content : String) : String :=
  let s1 := match yamlPattern1 content.data with
    | some p => p.2
    | none => content.data
  let s2 := match yamlPattern2 s1 with
    | some p => p.2
    | none => s1
  let cleanLines := (splitOnChar '\n' s2).map String.mk |>.filter
    (fun line => ¬ (commentMetaKV line).isSome ∧ ¬ commentSepLine line)
  String.mk ((joinChar '\n' cleanLines).data.dropWhile (· = '\n'))

/-! ### Dependency depth and topological ordering
(`sync-posts.js` lines 397–455; `src/utils/postSorting.ts` lines 9–61) -/

/-- The prerequisite list consulted by `calculateDepth`
(`!post.prerequisites || post.prerequisites.length === 0`). -/
def prereqSlugs (p : Post) : List String := p.prerequisites.getD []

/-- The slug lookup map `postsBySlug` built by `posts.forEach(p =>
postsBySlug.set(p.slug, p))`: the last post with a given slug wins. -/
def slugLookup (posts : List Post) (s : String) : Option Post :=
  posts.foldl (fun acc p => if p.slug = s then some p else acc) none

/-- The resolved prerequisites of a post, in order: dangling slugs are
silently skipped. -/
def resolvedPrereqs (posts : List Post) (p : Post) : List Post :=
  (prereqSlugs p).filterMap (slugLookup posts)

/-- Evaluation of `f` over a list that fails when any element fails. -/
def optionsAll {α β : Type} (f : α → Option β) : List α → Option (List β)
  | [] => some []
  | a :: l =>
    match f a, optionsAll f l with
    | some b, some bs => some (b :: bs)
    | _, _ => none

/-- `calculateDepth` from the sync script, with explicit recursion fuel. The
JS recursion has no fuel and diverges on cyclic prerequisite graphs; on
acyclic graphs `posts.length` fuel suffices for every post in the list
(proved below), making this a faithful total rendering. The memo map only
caches values of this same pure recursion when slugs are distinct, so it is
not modelled. `maxPrereqDepth` starts at `-1` as in the source, so the result
is an integer. -/
def calculateDepth (posts : List Post) : Nat → Post → Option Int
  | 0, _ => none
  | fuel + 1, p =>
    if (prereqSlugs p).isEmpty then some 0
    else
      match optionsAll (calculateDepth posts fuel) (resolvedPrereqs posts p) with
      | some ds => some (ds.foldl max (-1) + 1)
      | none => none

/-- The comparator's depth key `depthMemo.get(a.slug) || 0`: the memoized
depth of the post, with `0` substituted when unavailable. -/
def depthKey (posts : List Post) (p : Post) : Int :=
  (calculateDepth posts posts.length p).getD 0

/-- The grouping key of the sort: `a.sourceRepo || ''`. -/
def repoKey (p : Post) : String := p.sourceRepo.getD ""

/-- The date string consulted by the sort comparators. -/
def dateKey (p : Post) : String := p.date.getD ""

/-- Code-point (lexicographic) order on strings, the order underlying the
`localeCompare` model: `a` is at most `b`. -/
def strLeJS (a b : String) : Prop := charListCmp a.data b.data ≠ Ordering.gt

/-- Strict code-point order on strings. -/
def strLtJS (a b : String) : Prop := charListCmp a.data b.data = Ordering.lt

/-- The comparator of the sync script's `sortPostsTopologically` (lines
441–454), as an `Ordering`: `sourceRepo` (absent read as `''`) ascending,
then depth ascending, then `date` descending by `localeCompare`. -/
def postCmp (dk : Post → Int) (a b : Post) : Ordering :=
  if repoKey a ≠ repoKey b then strCmpJS (repoKey a) (repoKey b)
  else if dk a ≠ dk b then intCmp (dk a) (dk b)
  else strCmpJS (dateKey b) (dateKey a)

/-- `sortPostsTopologically` from the sync script: a stable sort by the
comparator (the entries reaching the sort always carry a date; a missing
date is read as `''`). -/
def sortPostsTopologically (posts : List Post) : List Post :=
  posts.insertionSort (fun a b => postCmp (depthKey posts) a b ≠ Ordering.gt)

/-- The comparator of the rendering layer's `sortPostsTopologically`
(`postSorting.ts` lines 47–60), which compares dates through
`new Date(x).getTime()` instead of `localeCompare`. -/
def renderPostCmp (dk : Post → Int) (dts : String → Int) (a b : Post) : Ordering :=
  if repoKey a ≠ repoKey b then strCmpJS (repoKey a) (repoKey b)
  else if dk a ≠ dk b then intCmp (dk a) (dk b)
  else intCmp (dts (dateKey b)) (dts (dateKey a))

/-- Modelled from the spec and `postSorting.ts`: the value of
`new Date(s).getTime()` for a `YYYY-MM-DD` string, encoded as
`y * 10000 + m * 100 + d`. On calendar-valid dates this encoding is related
to the true epoch-milliseconds value by a strictly increasing map, and the
comparator only consumes the sign of differences, so the induced order — the
only thing the sort observes — is exact. Non-`YYYY-MM-DD` strings (where the
real `getTime` would give `NaN` or roll the date over) are mapped to `0` and
are excluded by the hypotheses of the theorems below. -/
def dateTs (s : String) : Int :=
  match dateParts s with
  | some ymd => (ymd.1 : Int) * 10000 + (ymd.2.1 : Int) * 100 + ymd.2.2
  | none => 0

/-- The rendering layer's `calculatePostDepths`/`sortPostsTopologically`
(`postSorting.ts` lines 9–61). Its depth computation is textually the same
memoized recursion as the sync script's, so the shared `depthKey` embeds
both; only the date comparison differs. -/
def renderSortPostsTopologically (posts : List Post) : List Post :=
  posts.insertionSort (fun a b => renderPostCmp (depthKey posts) dateTs a b ≠ Ordering.gt)

/-! ### The main reconciliation run (`sync-posts.js` lines 461–570) -/

/-- A reference to a mutable `postData` object: either the shared manifest
object for a slug key (see `ProcessedPost.sharedRef`) or the post's own fresh
object, identified by its position. -/
inductive SlugRef where
  | obj : String → SlugRef
  | idx : Nat → SlugRef
deriving DecidableEq

/-- The object holding a post's data (model of JS reference identity). -/
def refOf (i : Nat) (p : ProcessedPost) : SlugRef :=
  match p.sharedRef with
  | some s => SlugRef.obj s
  | none => SlugRef.idx i

/-- `fs.renameSync` on the modelled directory. -/
def renameFile (fs : List RawFile) (oldName newName : String) : List RawFile :=
  fs.map (fun f => if f.filename = oldName then { f with filename := newName } else f)

/-- `fs.writeFileSync` of new content to an existing file. -/
def updateContent (fs : List RawFile) (name content : String) : List RawFile :=
  fs.map (fun f => if f.filename = name then { f with content := content } else f)

/-- `loadExistingPosts`: the slug-keyed map over the prior manifest, keeping
only entries with a truthy slug; a later entry overwrites an earlier one. -/
def manifestLookup (prior : List Post) : String → Option Post :=
  fun s => prior.foldl (fun acc p => if p.slug = s ∧ p.slug ≠ "" then some p else acc) none

/-- The apply loop of `main` (lines 528–549): renames are applied against the
live directory (`fs.existsSync` sees earlier renames), a skipped rename or
no-rename mode assigns the filename stem to the post object's slug, and
strip-meta rewrites the file at its current path. The collected assignments
record in-place slug mutations, keyed by the mutated object. -/
def applyLoop (cfg : Config) :
    List (Nat × ProcessedPost) → List RawFile → List (SlugRef × String) →
      List RawFile × List (SlugRef × String)
  | [], fs, assigns => (fs, assigns)
  | (i, p) :: rest, fs, assigns =>
    let step : List RawFile × String × List (SlugRef × String) :=
      if p.needsRename && !cfg.noRename then
        if fs.any (fun f => f.filename = p.newFilename) && p.filename ≠ p.newFilename then
          (fs, p.filename, assigns ++ [(refOf i p, stripMd p.filename)])
        else
          (renameFile fs p.filename p.newFilename, p.newFilename, assigns)
      else if cfg.noRename then
        (fs, p.filename, assigns ++ [(refOf i p, stripMd p.filename)])
      else (fs, p.filename, assigns)
    let fs2 := if cfg.stripMeta && p.hasMetadata then
        updateContent step.1 step.2.1 (stripMetadata p.originalContent)
      else step.1
    applyLoop cfg rest fs2 step.2.2

/-- The final slug of a post object after the apply loop: the last in-place
assignment to the object holding its data, or its original slug. -/
def finalSlug (assigns : List (SlugRef × String)) (r : SlugRef) (orig : String) : String :=
  (assigns.foldl (fun acc a => if a.1 = r then some a.2 else acc) none).getD orig

/-- Outcome of one `main` run: the resulting directory, the manifest that
`posts.json` holds afterwards, and whether it was (re)written. -/
structure SyncResult where
  files : List RawFile
  manifest : List Post
  written : Bool
deriving DecidableEq

/-- `main` from the sync script: load the prior manifest (ignored under
`--force`), process every `.md` file, and — outside dry-run mode — apply
renames/stripping and write the topologically sorted entries. An early return
without markdown files, like dry-run mode, leaves the manifest file as it
was. -/
def syncRun (cfg : Config) (files : List RawFile) (prior : List Post) : SyncResult :=
  let lookup := if cfg.force then (fun _ => none) else manifestLookup prior
  let mdFiles := files.filter (fun f => strEndsWith f.filename ".md")
  if mdFiles.isEmpty then { files := files, manifest := prior, written := false }
  else
    let posts := mdFiles.map (processPost cfg lookup)
    if cfg.dryRun then { files := files, manifest := prior, written := false }
    else
      let applied := applyLoop cfg posts.enum files []
      let finalPosts := posts.enum.map
        (fun ip => { ip.2.postData with
          slug := finalSlug applied.2 (refOf ip.1 ip.2) ip.2.postData.slug })
      { files := applied.1
        manifest := sortPostsTopologically finalPosts
        written := true }


/-! ### Derived notions used by the specification statements -/

/-- One resolved prerequisite edge: `q` is an entry of the set that some slug
listed in `p.prerequisites` resolves to. -/
def prereqStep (posts : List Post) (p q : Post) : Prop :=
  ∃ s ∈ prereqSlugs p, slugLookup posts s = some q

/-- Acyclicity of the resolved prerequisite relation: no entry reaches itself
through one or more resolved prerequisite edges. -/
def Acyclic (posts : List Post) : Prop :=
  ∀ p, ¬ Relation.TransGen (prereqStep posts) p p

/-- Number of days of a month, as used by the civil calendar (`Date` rolls
anything larger over into the next month). -/
def daysInMonth (y m : Nat) : Nat :=
  if m = 2 then (if y % 4 = 0 ∧ (y % 100 ≠ 0 ∨ y % 400 = 0) then 29 else 28)
  else if m = 4 ∨ m = 6 ∨ m = 9 ∨ m = 11 then 30
  else 31

/-- A calendar-valid `YYYY-MM-DD` string: correctly shaped with a real month
and day. On these strings `new Date(s).getTime()` is defined and strictly
monotone in the lexicographic string order. -/
def calendarValid (s : String) : Bool :=
  match dateParts s with
  | some ymd => 1 ≤ ymd.2.1 && ymd.2.1 ≤ 12 && 1 ≤ ymd.2.2 && ymd.2.2 ≤ daysInMonth ymd.1 ymd.2.1
  | none => false

/-- The concrete manifest entry used by the duplicate-slug and idempotence
scenarios below. -/
def eFoo : Post :=
  { slug := "foo", title := some "T", date := some "2024-05-05", tags := some ["t"] }

/-- The default flag set (no CLI options). -/
def cfgDefault : Config := {}

/-- Two markdown files that both match the manifest entry `eFoo` by slug:
the first is already at the canonical name for `eFoo`, the second is the bare
stem. -/
def filesFoo : List RawFile :=
  [⟨"2024-05-05-foo.md", "body one", "2024-01-01"⟩, ⟨"foo.md", "body two", "2024-01-01"⟩]
/-! ### Order-theoretic facts about the comparators -/

/-- Characters with equal code points are equal. -/
lemma char_eq_of_toNat_eq {a b : Char} (h : a.toNat = b.toNat) : a = b := by
  unfold Char.toNat at h
  exact Char.ext (UInt32.toNat.inj h)

/-- The comparison returns `eq` exactly on equal lists. -/
lemma charListCmp_eq_iff : ∀ (a b : List Char), charListCmp a b = Ordering.eq ↔ a = b := by
  intro a
  induction a with
  | nil =>
    intro b
    cases b <;> simp [charListCmp]
  | cons x xs ih =>
    intro b
    cases b with
    | nil => simp [charListCmp]
    | cons y ys =>
      simp only [charListCmp]
      split_ifs with h1 h2
      · constructor
        · intro h
          simp at h
        · rintro ⟨⟩
          omega
      · constructor
        · intro h
          simp at h
        · rintro ⟨⟩
          omega
      · have hx : x = y := char_eq_of_toNat_eq (by omega)
        subst hx
        rw [ih ys]
        simp

/-- Swapping the arguments swaps the comparison. -/
lemma charListCmp_symm : ∀ (a b : List Char), charListCmp b a = (charListCmp a b).swap := by
  intro a
  induction a with
  | nil =>
    intro b
    cases b <;> simp [charListCmp, Ordering.swap]
  | cons x xs ih =>
    intro b
    cases b with
    | nil => simp [charListCmp, Ordering.swap]
    | cons y ys =>
      simp only [charListCmp]
      split_ifs with h1 h2 <;>
        first
          | omega
          | rfl
          | exact ih ys

/-- Strict transitivity of the lexicographic comparison. -/
lemma charListCmp_lt_trans : ∀ (a b c : List Char),
    charListCmp a b = Ordering.lt → charListCmp b c = Ordering.lt →
      charListCmp a c = Ordering.lt := by
  intro a
  induction a with
  | nil =>
    intro b c hab hbc
    cases b with
    | nil => exact hbc
    | cons y ys =>
      cases c with
      | nil => simp [charListCmp] at hbc
      | cons z zs => simp [charListCmp]
  | cons x xs ih =>
    intro b c hab hbc
    cases b with
    | nil => simp [charListCmp] at hab
    | cons y ys =>
      cases c with
      | nil => simp [charListCmp] at hbc
      | cons z zs =>
        simp only [charListCmp] at hab hbc ⊢
        split_ifs at hab with hxy hyx
        · split_ifs at hbc with hyz hzy
          · have hl : x.toNat < z.toNat := by omega
            simp [hl]
          · have hl : x.toNat < z.toNat := by omega
            simp [hl]
        · split_ifs at hbc with hyz hzy
          · have hl : x.toNat < z.toNat := by omega
            simp [hl]
          · have hxz : ¬ x.toNat < z.toNat := by omega
            have hzx : ¬ z.toNat < x.toNat := by omega
            simp only [if_neg hxz, if_neg hzx]
            exact ih ys zs hab hbc

/-- Being at most is being strictly below or equal. -/
lemma charListCmp_ne_gt_iff (a b : List Char) :
    charListCmp a b ≠ Ordering.gt ↔ charListCmp a b = Ordering.lt ∨ a = b := by
  rw [← charListCmp_eq_iff]
  cases h : charListCmp a b <;> simp

/-- Transitivity of the non-strict comparison. -/
lemma charListCmp_le_trans {a b c : List Char}
    (hab : charListCmp a b ≠ Ordering.gt) (hbc : charListCmp b c ≠ Ordering.gt) :
    charListCmp a c ≠ Ordering.gt := by
  rw [charListCmp_ne_gt_iff] at hab hbc ⊢
  rcases hab with h1 | rfl
  · rcases hbc with h2 | rfl
    · exact Or.inl (charListCmp_lt_trans _ _ _ h1 h2)
    · exact Or.inl h1
  · exact hbc

/-- Totality of the non-strict comparison. -/
lemma charListCmp_total (a b : List Char) :
    charListCmp a b ≠ Ordering.gt ∨ charListCmp b a ≠ Ordering.gt := by
  cases h : charListCmp a b with
  | lt => exact Or.inl (by simp [h])
  | eq => exact Or.inl (by simp [h])
  | gt =>
    refine Or.inr ?_
    rw [charListCmp_symm, h]
    simp [Ordering.swap]

/-- Strictly below one way is strictly above the other way. -/
lemma charListCmp_gt_iff (a b : List Char) :
    charListCmp a b = Ordering.gt ↔ charListCmp b a = Ordering.lt := by
  rw [charListCmp_symm b a]
  cases hh : charListCmp b a <;> simp [Ordering.swap, hh]

/-- Strings are determined by their character data. -/
lemma string_data_inj {a b : String} (h : a.data = b.data) : a = b :=
  congrArg String.mk h

/-- On equal strings the comparison returns `eq`. -/
lemma charListCmp_self (a : String) : charListCmp a.data a.data = Ordering.eq :=
  (charListCmp_eq_iff _ _).mpr rfl

/-- Characterization of the comparator's notion of `a` at most `b`. -/
lemma postCmp_ne_gt_iff (dk : Post → Int) (a b : Post) :
    postCmp dk a b ≠ Ordering.gt ↔
      strLtJS (repoKey a) (repoKey b) ∨
        (repoKey a = repoKey b ∧ dk a < dk b) ∨
          (repoKey a = repoKey b ∧ dk a = dk b ∧ strLeJS (dateKey b) (dateKey a)) := by
  by_cases h1 : repoKey a = repoKey b
  · by_cases h2 : dk a = dk b
    · have hc : postCmp dk a b = strCmpJS (dateKey b) (dateKey a) := by
        unfold postCmp
        rw [if_neg (by simp [h1]), if_neg (by simp [h2])]
      rw [hc]
      unfold strCmpJS strLtJS strLeJS
      constructor
      · intro h
        exact Or.inr (Or.inr ⟨h1, h2, h⟩)
      · rintro (hlt | ⟨_, hdk⟩ | ⟨_, _, hle⟩)
        · rw [h1, charListCmp_self] at hlt
          exact absurd hlt (by decide)
        · omega
        · exact hle
    · have hc : postCmp dk a b = intCmp (dk a) (dk b) := by
        unfold postCmp
        rw [if_neg (by simp [h1]), if_pos h2]
      rw [hc]
      unfold intCmp strLtJS
      by_cases h3 : dk a < dk b
      · rw [if_pos h3]
        constructor
        · intro _
          exact Or.inr (Or.inl ⟨h1, h3⟩)
        · intro _
          decide
      · rw [if_neg h3, if_neg h2]
        constructor
        · intro h
          exact absurd rfl h
        · rintro (hlt | ⟨_, hdk⟩ | ⟨_, hdk, _⟩)
          · rw [h1, charListCmp_self] at hlt
            exact absurd hlt (by decide)
          · omega
          · exact absurd hdk h2
  · have hc : postCmp dk a b = strCmpJS (repoKey a) (repoKey b) := by
      unfold postCmp
      rw [if_pos h1]
    rw [hc]
    unfold strCmpJS strLtJS
    constructor
    · intro h
      rcases (charListCmp_ne_gt_iff _ _).mp h with hlt | heq
      · exact Or.inl hlt
      · exact absurd (string_data_inj heq) h1
    · rintro (hlt | ⟨heq, _⟩ | ⟨heq, _⟩)
      · simp [hlt]
      · exact absurd heq h1
      · exact absurd heq h1

/-- Swapping the arguments of `intCmp` swaps the ordering. -/
lemma intCmp_symm (a b : Int) : intCmp b a = (intCmp a b).swap := by
  unfold intCmp
  split_ifs <;> simp [Ordering.swap] <;> omega

/-- Swapping the arguments of the post comparator swaps the ordering, i.e.
the comparator is consistent in the sense required by `Array.prototype.sort`. -/
lemma postCmp_symm (dk : Post → Int) (a b : Post) :
    postCmp dk b a = (postCmp dk a b).swap := by
  unfold postCmp
  by_cases h1 : repoKey a = repoKey b
  · by_cases h2 : dk a = dk b
    · rw [if_neg (not_ne_iff.mpr h1.symm), if_neg (not_ne_iff.mpr h2.symm),
        if_neg (not_ne_iff.mpr h1), if_neg (not_ne_iff.mpr h2)]
      exact charListCmp_symm _ _
    · rw [if_neg (not_ne_iff.mpr h1.symm), if_pos (Ne.symm h2),
        if_neg (not_ne_iff.mpr h1), if_pos h2]
      exact intCmp_symm _ _
  · rw [if_pos (Ne.symm h1), if_pos h1]
    exact charListCmp_symm _ _

/-- Totality of the comparator's preorder. -/
lemma postLE_total (dk : Post → Int) (a b : Post) :
    postCmp dk a b ≠ Ordering.gt ∨ postCmp dk b a ≠ Ordering.gt := by
  cases h : postCmp dk a b with
  | lt => exact Or.inl (by simp [h])
  | eq => exact Or.inl (by simp [h])
  | gt =>
    refine Or.inr ?_
    rw [postCmp_symm, h]
    decide

/-- Transitivity of the comparator's preorder. -/
lemma postLE_trans (dk : Post → Int) {a b c : Post}
    (hab : postCmp dk a b ≠ Ordering.gt) (hbc : postCmp dk b c ≠ Ordering.gt) :
    postCmp dk a c ≠ Ordering.gt := by
  rw [postCmp_ne_gt_iff] at hab hbc ⊢
  unfold strLtJS strLeJS at hab hbc ⊢
  rcases hab with h1 | ⟨e1, l1⟩ | ⟨e1, q1, d1⟩ <;>
    rcases hbc with h2 | ⟨e2, l2⟩ | ⟨e2, q2, d2⟩
  · exact Or.inl (charListCmp_lt_trans _ _ _ h1 h2)
  · rw [e2] at h1
    exact Or.inl h1
  · rw [e2] at h1
    exact Or.inl h1
  · rw [← e1] at h2
    exact Or.inl h2
  · exact Or.inr (Or.inl ⟨e1.trans e2, lt_trans l1 l2⟩)
  · exact Or.inr (Or.inl ⟨e1.trans e2, by omega⟩)
  · rw [← e1] at h2
    exact Or.inl h2
  · exact Or.inr (Or.inl ⟨e1.trans e2, by omega⟩)
  · exact Or.inr (Or.inr ⟨e1.trans e2, q1.trans q2, charListCmp_le_trans d2 d1⟩)

/-- The sorted output of `sortPostsTopologically` is pairwise at most in the
comparator's preorder. -/
lemma sortPosts_pairwise (posts : List Post) :
    (sortPostsTopologically posts).Pairwise
      (fun a b => postCmp (depthKey posts) a b ≠ Ordering.gt) := by
  haveI : IsTotal Post (fun a b => postCmp (depthKey posts) a b ≠ Ordering.gt) :=
    ⟨postLE_total _⟩
  haveI : IsTrans Post (fun a b => postCmp (depthKey posts) a b ≠ Ordering.gt) :=
    ⟨fun _ _ _ => postLE_trans _⟩
  unfold sortPostsTopologically
  exact List.sorted_insertionSort _ posts

/-- Claim C1: on a list of posts with pairwise-distinct slugs and fixed-width
`YYYY-MM-DD` dates, `sortPostsTopologically` returns a permutation of its
input in which the `sourceRepo` keys (absent read as `''`) are non-decreasing
— so entries with equal `sourceRepo` are contiguous and the groups ascend —
and, between entries of one group, the dependency depth is non-decreasing,
and at equal depth the date is non-increasing (code-point order, which on
fixed-width dates is chronological order). -/
theorem claim1_sort_total_order (posts : List Post)
    (_hslug : (posts.map Post.slug).Nodup)
    (_hdate : ∀ p ∈ posts, (dateParts (dateKey p)).isSome = true) :
    (sortPostsTopologically posts).Perm posts ∧
      (sortPostsTopologically posts).Pairwise
        (fun a b => strLeJS (repoKey a) (repoKey b)) ∧
      (sortPostsTopologically posts).Pairwise
        (fun a b => repoKey a = repoKey b → depthKey posts a ≤ depthKey posts b) ∧
      (sortPostsTopologically posts).Pairwise
        (fun a b => repoKey a = repoKey b → depthKey posts a = depthKey posts b →
          strLeJS (dateKey b) (dateKey a)) := by
  have hsorted := sortPosts_pairwise posts
  refine ⟨List.perm_insertionSort _ _, ?_, ?_, ?_⟩
  · refine hsorted.imp ?_
    intro a b h
    rw [postCmp_ne_gt_iff] at h
    unfold strLtJS at h
    unfold strLeJS
    rcases h with h1 | ⟨e1, _⟩ | ⟨e1, _, _⟩
    · simp [h1]
    · rw [e1, charListCmp_self]
      decide
    · rw [e1, charListCmp_self]
      decide
  · refine hsorted.imp ?_
    intro a b h he
    rw [postCmp_ne_gt_iff] at h
    unfold strLtJS at h
    rcases h with h1 | ⟨_, l1⟩ | ⟨_, q1, _⟩
    · rw [he, charListCmp_self] at h1
      exact absurd h1 (by decide)
    · exact le_of_lt l1
    · exact le_of_eq q1
  · refine hsorted.imp ?_
    intro a b h he hq
    rw [postCmp_ne_gt_iff] at h
    unfold strLtJS at h
    rcases h with h1 | ⟨_, l1⟩ | ⟨_, _, d1⟩
    · rw [he, charListCmp_self] at h1
      exact absurd h1 (by decide)
    · omega
    · exact d1

/-- Witness for C1 at a concrete two-post list. -/
theorem claim1_sort_total_order_witness :
    (([{ slug := "a", date := some "2025-01-01", sourceRepo := some "proj" },
       { slug := "b", date := some "2025-01-02", sourceRepo := some "proj",
         prerequisites := some ["a"] }] : List Post).map Post.slug).Nodup ∧
      (sortPostsTopologically
        [{ slug := "a", date := some "2025-01-01", sourceRepo := some "proj" },
         { slug := "b", date := some "2025-01-02", sourceRepo := some "proj",
           prerequisites := some ["a"] }]).Perm
        [{ slug := "a", date := some "2025-01-01", sourceRepo := some "proj" },
         { slug := "b", date := some "2025-01-02", sourceRepo := some "proj",
           prerequisites := some ["a"] }] := by
  refine ⟨by decide, ?_⟩
  exact (claim1_sort_total_order _ (by decide) (by decide)).1

/-! ### Merge precedence (claims C5 and C10) -/

/-- A truthy existing string field survives the merge step. -/
lemma mergeStrField_keep {ex ext : Option String} (h : truthyStr ex = true) :
    mergeStrField ex ext = ex := by
  unfold mergeStrField
  rw [if_neg]
  simp [h]

/-- A truthy existing list field survives the merge step. -/
lemma mergeListField_keep {ex ext : Option (List String)} (h : truthyList ex = true) :
    mergeListField ex ext = ex := by
  unfold mergeListField
  rw [if_neg]
  simp [h]

/-- A changed string field was falsy and received the extracted value. -/
lemma mergeStrField_changed {ex ext : Option String} (h : mergeStrField ex ext ≠ ex) :
    truthyStr ex = false ∧ mergeStrField ex ext = ext := by
  unfold mergeStrField at h ⊢
  split_ifs at h ⊢ with hc
  · exact ⟨by simpa using hc.1, rfl⟩
  · exact absurd rfl h

/-- A changed list field was falsy and received the extracted value. -/
lemma mergeListField_changed {ex ext : Option (List String)} (h : mergeListField ex ext ≠ ex) :
    truthyList ex = false ∧ mergeListField ex ext = ext := by
  unfold mergeListField at h ⊢
  split_ifs at h ⊢ with hc
  · exact ⟨by simpa using hc.1, rfl⟩
  · exact absurd rfl h

/-- Claim C5: a non-forced merge keeps every present and non-empty value of
the existing entry, for all required and optional fields, and takes the
freshly extracted value only for fields whose existing value is absent or
empty. In particular an existing description keeps its value. -/
theorem claim5_merge_precedence (existing extracted : Post) :
    ((existing.slug ≠ "" → (mergePostData existing extracted).slug = existing.slug) ∧
      (truthyStr existing.title = true →
        (mergePostData existing extracted).title = existing.title) ∧
      (truthyStr existing.date = true →
        (mergePostData existing extracted).date = existing.date) ∧
      (truthyList existing.tags = true →
        (mergePostData existing extracted).tags = existing.tags) ∧
      (truthyStr existing.description = true →
        (mergePostData existing extracted).description = existing.description) ∧
      (truthyStr existing.sourceRepo = true →
        (mergePostData existing extracted).sourceRepo = existing.sourceRepo) ∧
      (truthyList existing.prerequisites = true →
        (mergePostData existing extracted).prerequisites = existing.prerequisites) ∧
      (truthyStr existing.lastUpdated = true →
        (mergePostData existing extracted).lastUpdated = existing.lastUpdated)) ∧
    (((mergePostData existing extracted).slug ≠ existing.slug →
        existing.slug = "" ∧ (mergePostData existing extracted).slug = extracted.slug) ∧
      ((mergePostData existing extracted).title ≠ existing.title →
        truthyStr existing.title = false ∧
          (mergePostData existing extracted).title = extracted.title) ∧
      ((mergePostData existing extracted).date ≠ existing.date →
        truthyStr existing.date = false ∧
          (mergePostData existing extracted).date = extracted.date) ∧
      ((mergePostData existing extracted).tags ≠ existing.tags →
        truthyList existing.tags = false ∧
          (mergePostData existing extracted).tags = extracted.tags) ∧
      ((mergePostData existing extracted).description ≠ existing.description →
        truthyStr existing.description = false ∧
          (mergePostData existing extracted).description = extracted.description) ∧
      ((mergePostData existing extracted).sourceRepo ≠ existing.sourceRepo →
        truthyStr existing.sourceRepo = false ∧
          (mergePostData existing extracted).sourceRepo = extracted.sourceRepo) ∧
      ((mergePostData existing extracted).prerequisites ≠ existing.prerequisites →
        truthyList existing.prerequisites = false ∧
          (mergePostData existing extracted).prerequisites = extracted.prerequisites) ∧
      ((mergePostData existing extracted).lastUpdated ≠ existing.lastUpdated →
        truthyStr existing.lastUpdated = false ∧
          (mergePostData existing extracted).lastUpdated = extracted.lastUpdated)) := by
  unfold mergePostData
  simp only
  constructor
  · refine ⟨?_, ?_, ?_, ?_, ?_, ?_, ?_, ?_⟩
    · intro h
      rw [if_neg]
      simp [h]
    all_goals intro h
    all_goals first
      | exact mergeStrField_keep h
      | exact mergeListField_keep h
  · refine ⟨?_, ?_, ?_, ?_, ?_, ?_, ?_, ?_⟩
    · intro h
      split_ifs at h ⊢ with hc
      · exact ⟨hc.1, rfl⟩
      · exact absurd rfl h
    all_goals intro h
    all_goals first
      | exact mergeStrField_changed h
      | exact mergeListField_changed h

/-- Witness for C5: an existing description `X` merged against a freshly
extracted description `Y` stays `X`. -/
theorem claim5_merge_precedence_witness :
    truthyStr (some "X") = true ∧
      (mergePostData { slug := "s", description := some "X" }
        { slug := "s", description := some "Y" }).description = some "X" := by
  refine ⟨by decide, ?_⟩
  exact (claim5_merge_precedence
    { slug := "s", description := some "X" }
    { slug := "s", description := some "Y" }).1.2.2.2.2.1 (by decide)

/-- Claim C10: the merge never touches fields outside the required and
optional field lists (`draft` and all extra properties are returned
unchanged), never overwrites a truthy existing value, and assigns a field
only when the existing value is absent or empty (falsy). -/
theorem claim10_merge_frame (existing extracted : Post) :
    ((mergePostData existing extracted).draft = existing.draft ∧
      (mergePostData existing extracted).extra = existing.extra) ∧
    ((existing.slug ≠ "" → (mergePostData existing extracted).slug = existing.slug) ∧
      (truthyStr existing.title = true →
        (mergePostData existing extracted).title = existing.title) ∧
      (truthyStr existing.date = true →
        (mergePostData existing extracted).date = existing.date) ∧
      (truthyList existing.tags = true →
        (mergePostData existing extracted).tags = existing.tags) ∧
      (truthyStr existing.description = true →
        (mergePostData existing extracted).description = existing.description) ∧
      (truthyStr existing.sourceRepo = true →
        (mergePostData existing extracted).sourceRepo = existing.sourceRepo) ∧
      (truthyList existing.prerequisites = true →
        (mergePostData existing extracted).prerequisites = existing.prerequisites) ∧
      (truthyStr existing.lastUpdated = true →
        (mergePostData existing extracted).lastUpdated = existing.lastUpdated)) ∧
    (((mergePostData existing extracted).slug ≠ existing.slug → existing.slug = "") ∧
      ((mergePostData existing extracted).title ≠ existing.title →
        truthyStr existing.title = false) ∧
      ((mergePostData existing extracted).date ≠ existing.date →
        truthyStr existing.date = false) ∧
      ((mergePostData existing extracted).tags ≠ existing.tags →
        truthyList existing.tags = false) ∧
      ((mergePostData existing extracted).description ≠ existing.description →
        truthyStr existing.description = false) ∧
      ((mergePostData existing extracted).sourceRepo ≠ existing.sourceRepo →
        truthyStr existing.sourceRepo = false) ∧
      ((mergePostData existing extracted).prerequisites ≠ existing.prerequisites →
        truthyList existing.prerequisites = false) ∧
      ((mergePostData existing extracted).lastUpdated ≠ existing.lastUpdated →
        truthyStr existing.lastUpdated = false)) := by
  refine ⟨⟨rfl, rfl⟩, ?_, ?_⟩
  · unfold mergePostData
    simp only
    refine ⟨?_, ?_, ?_, ?_, ?_, ?_, ?_, ?_⟩
    · intro h
      rw [if_neg]
      simp [h]
    all_goals intro h
    all_goals first
      | exact mergeStrField_keep h
      | exact mergeListField_keep h
  · unfold mergePostData
    simp only
    refine ⟨?_, ?_, ?_, ?_, ?_, ?_, ?_, ?_⟩
    · intro h
      split_ifs at h with hc
      · exact hc.1
      · exact absurd rfl h
    all_goals intro h
    all_goals first
      | exact (mergeStrField_changed h).1
      | exact (mergeListField_changed h).1

/-- Witness for C10: a `draft` flag and an unknown extra property survive a
merge that fills a missing description. -/
theorem claim10_merge_frame_witness :
    (mergePostData { slug := "s", draft := some true, extra := [("x", "1")] }
      { slug := "s", description := some "d" }).draft = some true := by
  have h := (claim10_merge_frame
    { slug := "s", draft := some true, extra := [("x", "1")] }
    { slug := "s", description := some "d" }).1.1
  rw [h]

/-! ### Depth computation: termination and semantics (claims C2 and C3) -/

/-- Unfolding of the slug-map lookup: a hit is a member with that slug. -/
lemma slugLookup_aux (s : String) :
    ∀ (l : List Post) (acc : Option Post) (q : Post),
      l.foldl (fun acc p => if p.slug = s then some p else acc) acc = some q →
        acc = some q ∨ (q ∈ l ∧ q.slug = s) := by
  intro l
  induction l with
  | nil =>
    intro acc q h
    exact Or.inl h
  | cons p t ih =>
    intro acc q h
    rw [List.foldl_cons] at h
    rcases ih _ q h with hacc | hmem
    · by_cases hp : p.slug = s
      · rw [if_pos hp] at hacc
        injection hacc with he
        subst he
        exact Or.inr ⟨List.mem_cons_self _ _, hp⟩
      · rw [if_neg hp] at hacc
        exact Or.inl hacc
    · exact Or.inr ⟨List.mem_cons_of_mem _ hmem.1, hmem.2⟩

/-- A resolved slug resolves to a member of the set carrying that slug. -/
lemma slugLookup_mem {posts : List Post} {s : String} {q : Post}
    (h : slugLookup posts s = some q) : q ∈ posts ∧ q.slug = s := by
  rcases slugLookup_aux s posts none q h with hacc | hm
  · exact absurd hacc (by simp)
  · exact hm

/-- Membership in the resolved prerequisites is exactly one resolved edge. -/
lemma mem_resolvedPrereqs {posts : List Post} {p q : Post} :
    q ∈ resolvedPrereqs posts p ↔ prereqStep posts p q := by
  unfold resolvedPrereqs prereqStep
  rw [List.mem_filterMap]

/-- The target of a resolved edge belongs to the entry set. -/
lemma prereqStep_target_mem {posts : List Post} {p q : Post}
    (h : prereqStep posts p q) : q ∈ posts := by
  rcases h with ⟨s, _, hl⟩
  exact (slugLookup_mem hl).1

/-- Every element of a prerequisite chain is reachable from its head. -/
lemma chain_transGen {posts : List Post} :
    ∀ {l : List Post} {p : Post}, List.Chain (prereqStep posts) p l →
      ∀ b ∈ l, Relation.TransGen (prereqStep posts) p b := by
  intro l
  induction l with
  | nil =>
    intro p _ b hb
    simp at hb
  | cons c t ih =>
    intro p hch b hb
    rcases List.chain_cons.mp hch with ⟨hpc, hct⟩
    rcases List.mem_cons.mp hb with rfl | hb
    · exact Relation.TransGen.single hpc
    · exact Relation.TransGen.head hpc (ih hct b hb)

/-- A repetition inside a prerequisite chain yields a reachability cycle. -/
lemma chain_cycle_of_dup {posts : List Post} :
    ∀ {l : List Post} {p : Post}, List.Chain (prereqStep posts) p l →
      ¬ (p :: l).Nodup → ∃ x, Relation.TransGen (prereqStep posts) x x := by
  intro l
  induction l with
  | nil =>
    intro p _ hnd
    simp at hnd
  | cons c t ih =>
    intro p hch hnd
    rcases List.chain_cons.mp hch with ⟨hpc, hct⟩
    by_cases hp : p ∈ c :: t
    · exact ⟨p, chain_transGen hch p hp⟩
    · refine ih hct ?_
      intro hnd2
      exact hnd (List.nodup_cons.mpr ⟨hp, hnd2⟩)

/-- Every element of a prerequisite chain lies in the entry set. -/
lemma chain_mem_posts {posts : List Post} :
    ∀ {l : List Post} {p : Post}, List.Chain (prereqStep posts) p l →
      ∀ b ∈ l, b ∈ posts := by
  intro l
  induction l with
  | nil =>
    intro p _ b hb
    simp at hb
  | cons c t ih =>
    intro p hch b hb
    rcases List.chain_cons.mp hch with ⟨hpc, hct⟩
    rcases List.mem_cons.mp hb with rfl | hb
    · exact prereqStep_target_mem hpc
    · exact ih hct b hb

/-- In an acyclic entry set a prerequisite chain starting at a member is
shorter than the set: its nodes are pairwise distinct members. -/
lemma chain_length_lt {posts : List Post} (hac : Acyclic posts) {p : Post}
    {l : List Post} (hp : p ∈ posts)
    (hch : List.Chain (prereqStep posts) p l) : l.length < posts.length := by
  have hnd : (p :: l).Nodup := by
    by_contra hnd
    rcases chain_cycle_of_dup hch hnd with ⟨x, hx⟩
    exact hac x hx
  have hsub : (p :: l) ⊆ posts := by
    intro b hb
    rcases List.mem_cons.mp hb with rfl | hb
    · exact hp
    · exact chain_mem_posts hch b hb
  have hle := (hnd.subperm hsub).length_le
  simp only [List.length_cons] at hle
  omega

/-- If every element maps to a value, the joint evaluation succeeds. -/
lemma optionsAll_isSome {α β : Type} (f : α → Option β) :
    ∀ {l : List α}, (∀ a ∈ l, (f a).isSome = true) → (optionsAll f l).isSome = true := by
  intro l
  induction l with
  | nil =>
    intro _
    simp [optionsAll]
  | cons a t ih =>
    intro h
    have ha := h a (List.mem_cons_self _ _)
    rcases hfa : f a with _ | b
    · rw [hfa] at ha
      simp at ha
    · have ht := ih (fun x hx => h x (List.mem_cons_of_mem _ hx))
      rcases hrest : optionsAll f t with _ | bt
      · rw [hrest] at ht
        simp at ht
      · simp [optionsAll, hfa, hrest]

/-- If the joint evaluation succeeds, every element maps to a value. -/
lemma optionsAll_mem_isSome {α β : Type} (f : α → Option β) :
    ∀ {l : List α}, (optionsAll f l).isSome = true → ∀ a ∈ l, (f a).isSome = true := by
  intro l
  induction l with
  | nil =>
    intro _ a ha
    simp at ha
  | cons a t ih =>
    intro h x hx
    simp only [optionsAll] at h
    rcases hfa : f a with _ | b <;> rw [hfa] at h
    · simp at h
    · rcases hrest : optionsAll f t with _ | bt <;> rw [hrest] at h
      · simp at h
      · rcases List.mem_cons.mp hx with rfl | hx
        · simp [hfa]
        · exact ih (by simp [hrest]) x hx

/-- The joint evaluation only depends on the values on the list. -/
lemma optionsAll_congr {α β : Type} {f g : α → Option β} :
    ∀ {l : List α}, (∀ a ∈ l, f a = g a) → optionsAll f l = optionsAll g l := by
  intro l
  induction l with
  | nil =>
    intro _
    rfl
  | cons a t ih =>
    intro h
    simp only [optionsAll]
    rw [h a (List.mem_cons_self _ _), ih (fun x hx => h x (List.mem_cons_of_mem _ hx))]

/-- A successful joint evaluation is the elementwise evaluation. -/
lemma optionsAll_eq_map {α β : Type} (f : α → Option β) (d : β) :
    ∀ {l : List α} {bs : List β}, optionsAll f l = some bs →
      bs = l.map (fun a => (f a).getD d) := by
  intro l
  induction l with
  | nil =>
    intro bs h
    simp only [optionsAll] at h
    injection h with h
    simp [← h]
  | cons a t ih =>
    intro bs h
    simp only [optionsAll] at h
    rcases hfa : f a with _ | b <;> rw [hfa] at h
    · simp at h
    · rcases hrest : optionsAll f t with _ | bt <;> rw [hrest] at h
      · simp at h
      · injection h with h
        subst h
        simp [hfa, ih hrest]

/-- With enough fuel for every chain from `p`, the depth computation returns
a value. -/
lemma calculateDepth_isSome_of_chains (posts : List Post) :
    ∀ (fuel : Nat) (p : Post),
      (∀ l, List.Chain (prereqStep posts) p l → l.length < fuel) →
        (calculateDepth posts fuel p).isSome = true := by
  intro fuel
  induction fuel with
  | zero =>
    intro p h
    exact absurd (h [] List.Chain.nil) (by simp)
  | succ n ih =>
    intro p h
    simp only [calculateDepth]
    split_ifs with he
    · simp
    · have hall : ∀ q ∈ resolvedPrereqs posts p, (calculateDepth posts n q).isSome = true := by
        intro q hq
        apply ih
        intro l hl
        have hstep : prereqStep posts p q := mem_resolvedPrereqs.mp hq
        have hlen := h (q :: l) (List.chain_cons.mpr ⟨hstep, hl⟩)
        simp only [List.length_cons] at hlen
        omega
      rcases hsome : optionsAll (calculateDepth posts n) (resolvedPrereqs posts p) with _ | ds
      · have := optionsAll_isSome _ hall
        rw [hsome] at this
        simp at this
      · simp [hsome]

/-- Above the sufficient fuel the computed value is stable. -/
lemma calculateDepth_mono (posts : List Post) :
    ∀ (f1 : Nat) (p : Post), (calculateDepth posts f1 p).isSome = true →
      ∀ f2, f1 ≤ f2 → calculateDepth posts f2 p = calculateDepth posts f1 p := by
  intro f1
  induction f1 with
  | zero =>
    intro p h
    simp [calculateDepth] at h
  | succ n ih =>
    intro p h f2 hle
    obtain ⟨m, rfl⟩ : ∃ m, f2 = m + 1 := ⟨f2 - 1, by omega⟩
    simp only [calculateDepth] at h ⊢
    split_ifs at h ⊢ with he
    · rfl
    · rcases hsome : optionsAll (calculateDepth posts n) (resolvedPrereqs posts p) with _ | ds
      · rw [hsome] at h
        simp at h
      · have hel := optionsAll_mem_isSome (calculateDepth posts n)
          (l := resolvedPrereqs posts p) (by simp [hsome])
        have hcg : optionsAll (calculateDepth posts m) (resolvedPrereqs posts p) =
            optionsAll (calculateDepth posts n) (resolvedPrereqs posts p) :=
          optionsAll_congr (fun q hq => ih q (hel q hq) m (by omega))
        rw [hcg, hsome]

/-- In an acyclic set, `posts.length` fuel computes the depth of any member. -/
lemma calculateDepth_total_of_acyclic {posts : List Post} (hac : Acyclic posts)
    {p : Post} (hp : p ∈ posts) :
    (calculateDepth posts posts.length p).isSome = true :=
  calculateDepth_isSome_of_chains posts _ p (fun _ hl => chain_length_lt hac hp hl)

/-- An entry set none of whose members has a resolvable prerequisite is
acyclic: every cycle would have to start with a step out of a member. -/
lemma acyclic_of_no_member_step {posts : List Post}
    (h : ∀ p ∈ posts, resolvedPrereqs posts p = []) : Acyclic posts := by
  intro p hcyc
  have hmem : ∀ {a b : Post}, Relation.TransGen (prereqStep posts) a b → b ∈ posts := by
    intro a b hab
    induction hab with
    | single hs => exact prereqStep_target_mem hs
    | tail _ hs _ => exact prereqStep_target_mem hs
  have hp : p ∈ posts := hmem hcyc
  have hfirst : ∀ {b : Post}, Relation.TransGen (prereqStep posts) p b →
      ∃ c, prereqStep posts p c := by
    intro b hb
    induction hb with
    | single hs => exact ⟨_, hs⟩
    | tail _ _ ih => exact ih
  rcases hfirst hcyc with ⟨c, hs⟩
  have hc : c ∈ resolvedPrereqs posts p := mem_resolvedPrereqs.mpr hs
  rw [h p hp] at hc
  simp at hc

/-- Claim C3: under acyclicity of the resolved prerequisite relation the
recursive depth computation terminates — the fueled embedding succeeds for
every entry with fuel `posts.length`, and the value is independent of any
larger fuel, so the recursion defines a total function on the entry set. -/
theorem claim3_depth_terminates (posts : List Post) (hac : Acyclic posts) :
    ∀ p ∈ posts, (calculateDepth posts posts.length p).isSome = true ∧
      ∀ fuel, posts.length ≤ fuel →
        calculateDepth posts fuel p = calculateDepth posts posts.length p := by
  intro p hp
  have hs := calculateDepth_total_of_acyclic hac hp
  exact ⟨hs, fun fuel hf => calculateDepth_mono posts _ p hs fuel hf⟩

/-- Witness for C3: a one-entry acyclic set. -/
theorem claim3_depth_terminates_witness :
    (calculateDepth [eFoo] [eFoo].length eFoo).isSome = true := by
  have hac : Acyclic [eFoo] := acyclic_of_no_member_step (by decide)
  exact (claim3_depth_terminates [eFoo] hac eFoo (by decide)).1

/-- The initial accumulator bounds the fold of `max`. -/
lemma foldl_max_le_init : ∀ (l : List Int) (c : Int), c ≤ l.foldl max c := by
  intro l
  induction l with
  | nil =>
    intro c
    simp
  | cons x t ih =>
    intro c
    rw [List.foldl_cons]
    exact le_trans (le_max_left c x) (ih (max c x))

/-- Every member bounds the fold of `max`. -/
lemma foldl_max_ge_mem : ∀ (l : List Int) (c : Int), ∀ x ∈ l, x ≤ l.foldl max c := by
  intro l
  induction l with
  | nil =>
    intro c x hx
    simp at hx
  | cons y t ih =>
    intro c x hx
    rw [List.foldl_cons]
    rcases List.mem_cons.mp hx with rfl | hx
    · exact le_trans (le_max_right c x) (foldl_max_le_init t (max c x))
    · exact ih (max c y) x hx

/-- The fold of `max` is a member or the initial accumulator. -/
lemma foldl_max_mem_or_init : ∀ (l : List Int) (c : Int),
    l.foldl max c ∈ l ∨ l.foldl max c = c := by
  intro l
  induction l with
  | nil =>
    intro c
    simp
  | cons y t ih =>
    intro c
    rw [List.foldl_cons]
    rcases ih (max c y) with hm | he
    · exact Or.inl (List.mem_cons_of_mem _ hm)
    · rcases max_cases c y with ⟨hmax, _⟩ | ⟨hmax, _⟩
      · exact Or.inr (he.trans hmax)
      · refine Or.inl ?_
        rw [he, hmax]
        exact List.mem_cons_self _ _

/-- Computed depths are never negative. -/
lemma calculateDepth_nonneg (posts : List Post) :
    ∀ (fuel : Nat) (p : Post) (d : Int), calculateDepth posts fuel p = some d → 0 ≤ d := by
  intro fuel
  cases fuel with
  | zero =>
    intro p d h
    simp [calculateDepth] at h
  | succ n =>
    intro p d h
    simp only [calculateDepth] at h
    split_ifs at h with he
    · injection h with h
      omega
    · rcases hsome : optionsAll (calculateDepth posts n) (resolvedPrereqs posts p)
          with _ | ds <;> rw [hsome] at h
      · simp at h
      · injection h with h
        have := foldl_max_le_init ds (-1)
        omega

/-- Claim C2: in an acyclic entry set, the depth of an entry is 0 when its
prerequisites field is absent or empty, 0 when no listed slug resolves
(dangling references are ignored, in particular a single unknown slug), and
otherwise one plus the largest depth among the prerequisites that resolve. -/
theorem claim2_depth_equations (posts : List Post) (hac : Acyclic posts) :
    ∀ p ∈ posts,
      (prereqSlugs p = [] → calculateDepth posts posts.length p = some 0) ∧
      (resolvedPrereqs posts p = [] → calculateDepth posts posts.length p = some 0) ∧
      (∀ s, prereqSlugs p = [s] → slugLookup posts s = none →
        calculateDepth posts posts.length p = some 0) ∧
      (resolvedPrereqs posts p ≠ [] →
        ∃ q ∈ resolvedPrereqs posts p,
          calculateDepth posts posts.length p =
            some ((calculateDepth posts posts.length q).getD 0 + 1) ∧
          ∀ r ∈ resolvedPrereqs posts p,
            (calculateDepth posts posts.length r).getD 0 ≤
              (calculateDepth posts posts.length q).getD 0) := by
  intro p hp
  obtain ⟨m, hm⟩ : ∃ m, posts.length = m + 1 :=
    ⟨posts.length - 1, by
      have := List.length_pos.mpr (List.ne_nil_of_mem hp)
      omega⟩
  have hbase : resolvedPrereqs posts p = [] →
      calculateDepth posts posts.length p = some 0 := by
    intro hres
    rw [hm]
    simp only [calculateDepth]
    split_ifs with he
    · rfl
    · rw [hres]
      simp only [optionsAll, List.foldl_nil]
      norm_num
  refine ⟨?_, hbase, ?_, ?_⟩
  · intro he
    apply hbase
    unfold resolvedPrereqs
    rw [he]
    rfl
  · intro s hps hlk
    apply hbase
    unfold resolvedPrereqs
    rw [hps]
    simp [hlk]
  · intro hne
    have hsome := calculateDepth_total_of_acyclic hac hp
    have hpe : ¬ (prereqSlugs p).isEmpty = true := by
      intro he
      apply hne
      unfold resolvedPrereqs
      rw [List.isEmpty_iff.mp he]
      rfl
    rcases hsall : optionsAll (calculateDepth posts m) (resolvedPrereqs posts p)
        with _ | ds
    · exfalso
      rw [hm] at hsome
      simp only [calculateDepth] at hsome
      rw [if_neg hpe, hsall] at hsome
      simp at hsome
    · have hds := optionsAll_eq_map (calculateDepth posts m) 0 hsall
      have hsel : ∀ q ∈ resolvedPrereqs posts p,
          (calculateDepth posts m q).isSome = true :=
        optionsAll_mem_isSome _ (by simp [hsall])
      have hmono : ∀ q ∈ resolvedPrereqs posts p,
          calculateDepth posts (m + 1) q = calculateDepth posts m q := by
        intro q hq
        exact calculateDepth_mono posts m q (hsel q hq) (m + 1) (by omega)
      have hnonneg : ∀ x ∈ ds, (0 : Int) ≤ x := by
        intro x hx
        rw [hds] at hx
        rcases List.mem_map.mp hx with ⟨q, hq, hv⟩
        obtain ⟨dq, hdq⟩ := Option.isSome_iff_exists.mp (hsel q hq)
        rw [← hv, hdq]
        exact calculateDepth_nonneg posts m q dq hdq
      have hdsne : ds ≠ [] := by
        intro hnil
        rw [hds] at hnil
        exact hne (List.map_eq_nil_iff.mp hnil)
      have hmem : ds.foldl max (-1) ∈ ds := by
        rcases foldl_max_mem_or_init ds (-1) with hin | hinit
        · exact hin
        · exfalso
          rcases List.exists_mem_of_ne_nil ds hdsne with ⟨x, hx⟩
          have h1 := foldl_max_ge_mem ds (-1) x hx
          have h2 := hnonneg x hx
          omega
      have hmem2 : ds.foldl max (-1) ∈
          List.map (fun a => (calculateDepth posts m a).getD 0) (resolvedPrereqs posts p) := by
        rw [← hds]
        exact hmem
      rcases List.mem_map.mp hmem2 with ⟨q, hq, hv⟩
      have heq : calculateDepth posts (m + 1) p = some (ds.foldl max (-1) + 1) := by
        simp only [calculateDepth]
        rw [if_neg hpe, hsall]
      rw [hm]
      refine ⟨q, hq, ?_, ?_⟩
      · rw [heq, hmono q hq, hv]
      · intro r hr
        rw [hmono r hr, hmono q hq, hv]
        apply foldl_max_ge_mem
        rw [hds]
        exact List.mem_map.mpr ⟨r, hr, rfl⟩

/-- Witness for C2: a two-entry acyclic set whose second entry lists only a
dangling prerequisite slug. -/
theorem claim2_depth_equations_witness :
    calculateDepth [eFoo, { slug := "x", prerequisites := some ["nope"] }]
      [eFoo, { slug := "x", prerequisites := some ["nope"] }].length
      { slug := "x", prerequisites := some ["nope"] } = some 0 := by
  have hac : Acyclic [eFoo, { slug := "x", prerequisites := some ["nope"] }] :=
    acyclic_of_no_member_step (by decide)
  exact (claim2_depth_equations _ hac _ (by decide)).2.2.1 "nope" (by decide) (by decide)

/-! ### Dates: lexicographic order equals parsed-timestamp order (claim C9) -/

/-- Bounds of a digit character's code point. -/
lemma isDigitChar_bounds {c : Char} (h : isDigitChar c = true) :
    48 ≤ c.toNat ∧ c.toNat ≤ 57 := by
  unfold isDigitChar at h
  simp only [Bool.and_eq_true, decide_eq_true_eq] at h
  exact h

/-- Unfolding equation of the comparison on two cons cells. -/
lemma charListCmp_cons_cons (a b : Char) (as bs : List Char) :
    charListCmp (a :: as) (b :: bs) =
      if a.toNat < b.toNat then Ordering.lt
      else if b.toNat < a.toNat then Ordering.gt
      else charListCmp as bs := rfl

/-- The comparison of two empty lists. -/
lemma charListCmp_nil_nil : charListCmp [] [] = Ordering.eq := rfl


/-- A level of the comparison against the sign of a timestamp difference. -/
lemma cmp_step (a b : Nat) (rest : Ordering) (v w : Int)
    (h1 : a < b → v < w) (h2 : b < a → w < v)
    (h3 : ¬ a < b → ¬ b < a → rest = intCmp v w) :
    (if a < b then Ordering.lt else if b < a then Ordering.gt else rest) =
      intCmp v w := by
  by_cases c1 : a < b
  · rw [if_pos c1]
    have hv := h1 c1
    unfold intCmp
    rw [if_pos hv]
  · by_cases c2 : b < a
    · rw [if_neg c1, if_pos c2]
      have hw := h2 c2
      unfold intCmp
      rw [if_neg (by omega), if_neg (by omega)]
    · rw [if_neg c1, if_neg c2]
      exact h3 c1 c2

/-- Equal arguments compare as `eq`. -/
lemma intCmp_of_eq {v w : Int} (h : v = w) : intCmp v w = Ordering.eq := by
  unfold intCmp
  rw [if_neg (by omega), if_pos h]

set_option maxHeartbeats 1000000 in
/-- On fixed-width `YYYY-MM-DD` strings, code-point comparison agrees with
comparison of the parsed timestamps. -/
lemma charListCmp_dateTs {x y : String} {px py : Nat × Nat × Nat}
    (hx : dateParts x = some px) (hy : dateParts y = some py) :
    charListCmp x.data y.data = intCmp (dateTs x) (dateTs y) := by
  have hx0 := hx
  have hy0 := hy
  unfold dateParts at hx hy
  split at hx
  case h_2 => simp at hx
  case h_1 a1 a2 a3 a4 ah1 a5 a6 ah2 a7 a8 heqx =>
    split at hy
    case h_2 => simp at hy
    case h_1 b1 b2 b3 b4 bh1 b5 b6 bh2 b7 b8 heqy =>
      split_ifs at hx with hcx
      split_ifs at hy with hcy
      injection hx with hx
      injection hy with hy
      subst hx
      subst hy
      simp only [isDigitChar, Bool.and_eq_true, decide_eq_true_eq, and_assoc] at hcx hcy
      obtain ⟨x1, x2, x3, x4, x5, x6, x7, x8, hxd1, x9, x10, x11, x12, hxd2,
        x13, x14, x15, x16⟩ := hcx
      obtain ⟨y1, y2, y3, y4, y5, y6, y7, y8, hyd1, y9, y10, y11, y12, hyd2,
        y13, y14, y15, y16⟩ := hcy
      have hdd1 : ah1.toNat = bh1.toNat := by rw [hxd1, hyd1]
      have hdd2 : ah2.toNat = bh2.toNat := by rw [hxd2, hyd2]
      unfold dateTs
      rw [heqx, heqy, hx0, hy0, charListCmp_cons_cons, charListCmp_cons_cons,
        charListCmp_cons_cons, charListCmp_cons_cons, charListCmp_cons_cons,
        charListCmp_cons_cons, charListCmp_cons_cons, charListCmp_cons_cons,
        charListCmp_cons_cons, charListCmp_cons_cons, charListCmp_nil_nil]
      unfold digitVal
      dsimp only
      refine cmp_step _ _ _ _ _ (fun hlt => by omega) (fun hlt => by omega) ?_
      intro he1 he2
      refine cmp_step _ _ _ _ _ (fun hlt => by omega) (fun hlt => by omega) ?_
      intro he3 he4
      refine cmp_step _ _ _ _ _ (fun hlt => by omega) (fun hlt => by omega) ?_
      intro he5 he6
      refine cmp_step _ _ _ _ _ (fun hlt => by omega) (fun hlt => by omega) ?_
      intro he7 he8
      refine cmp_step _ _ _ _ _ (fun hlt => by omega) (fun hlt => by omega) ?_
      intro he9 he10
      refine cmp_step _ _ _ _ _ (fun hlt => by omega) (fun hlt => by omega) ?_
      intro he11 he12
      refine cmp_step _ _ _ _ _ (fun hlt => by omega) (fun hlt => by omega) ?_
      intro he13 he14
      refine cmp_step _ _ _ _ _ (fun hlt => by omega) (fun hlt => by omega) ?_
      intro he15 he16
      refine cmp_step _ _ _ _ _ (fun hlt => by omega) (fun hlt => by omega) ?_
      intro he17 he18
      refine cmp_step _ _ _ _ _ (fun hlt => by omega) (fun hlt => by omega) ?_
      intro he19 he20
      exact (intCmp_of_eq (by omega)).symm

/-- Inserting with two relations that agree on the carrier list gives the
same result. -/
lemma orderedInsert_congr {α : Type} {r1 r2 : α → α → Prop}
    [DecidableRel r1] [DecidableRel r2] (a : α) :
    ∀ (l : List α), (∀ b ∈ l, (r1 a b ↔ r2 a b)) →
      List.orderedInsert r1 a l = List.orderedInsert r2 a l := by
  intro l
  induction l with
  | nil =>
    intro _
    rfl
  | cons b t ih =>
    intro h
    simp only [List.orderedInsert]
    by_cases hr : r2 a b
    · rw [if_pos ((h b (List.mem_cons_self _ _)).mpr hr), if_pos hr]
    · rw [if_neg (fun hh => hr ((h b (List.mem_cons_self _ _)).mp hh)), if_neg hr,
        ih (fun c hc => h c (List.mem_cons_of_mem _ hc))]

/-- A stable sort by two relations that agree on the list gives the same
result. -/
lemma insertionSort_congr {α : Type} {r1 r2 : α → α → Prop}
    [DecidableRel r1] [DecidableRel r2] :
    ∀ (l : List α), (∀ x ∈ l, ∀ y ∈ l, r1 x y ↔ r2 x y) →
      List.insertionSort r1 l = List.insertionSort r2 l := by
  intro l
  induction l with
  | nil =>
    intro _
    rfl
  | cons a t ih =>
    intro h
    simp only [List.insertionSort]
    rw [ih (fun x hx y hy =>
      h x (List.mem_cons_of_mem _ hx) y (List.mem_cons_of_mem _ hy))]
    refine orderedInsert_congr a _ ?_
    intro b hb
    exact h a (List.mem_cons_self _ _) b
      (List.mem_cons_of_mem _ ((List.perm_insertionSort r2 t).subset hb))

/-- A calendar-valid date string has the fixed-width shape. -/
lemma calendarValid_isSome {s : String} (h : calendarValid s = true) :
    ∃ p, dateParts s = some p := by
  unfold calendarValid at h
  rcases hp : dateParts s with _ | p
  · rw [hp] at h
    simp at h
  · exact ⟨p, rfl⟩

/-- Claim C9: on entries with pairwise-distinct slugs, calendar-valid
`YYYY-MM-DD` dates and an acyclic prerequisite relation, the sync script's
sorter (string comparison on dates) and the rendering layer's sorter
(timestamp comparison on dates) produce the same output order. -/
theorem claim9_sort_refinement (posts : List Post)
    (_hslug : (posts.map Post.slug).Nodup)
    (hdate : ∀ p ∈ posts, calendarValid (dateKey p) = true)
    (_hac : Acyclic posts) :
    sortPostsTopologically posts = renderSortPostsTopologically posts := by
  unfold sortPostsTopologically renderSortPostsTopologically
  apply insertionSort_congr
  intro a ha b hb
  have hcmp : postCmp (depthKey posts) a b = renderPostCmp (depthKey posts) dateTs a b := by
    unfold postCmp renderPostCmp
    split_ifs with h1 h2
    · rfl
    · rfl
    · obtain ⟨pa, hpa⟩ := calendarValid_isSome (hdate a ha)
      obtain ⟨pb, hpb⟩ := calendarValid_isSome (hdate b hb)
      exact charListCmp_dateTs hpb hpa
  rw [hcmp]

/-- Witness for C9 at a concrete acyclic two-post list. -/
theorem claim9_sort_refinement_witness :
    sortPostsTopologically
        [eFoo, { slug := "x", date := some "2024-06-01", prerequisites := some ["nope"] }] =
      renderSortPostsTopologically
        [eFoo, { slug := "x", date := some "2024-06-01", prerequisites := some ["nope"] }] := by
  have hac : Acyclic
      [eFoo, { slug := "x", date := some "2024-06-01", prerequisites := some ["nope"] }] :=
    acyclic_of_no_member_step (by decide)
  exact claim9_sort_refinement _ (by decide) (by decide) hac

/-! ### Extraction of files with an empty metadata block (claim C6) -/

/-- Lookup on the empty object model. -/
lemma jget_nil (k : String) : jget [] k = none := rfl

/-- String lookup on the empty object model. -/
lemma jgetStr_nil (k : String) : jgetStr [] k = none := rfl

/-- The falsy branch of the string-truthiness chain. -/
lemma jsStrOr_empty (b : String) : jsStrOr "" b = b := by
  unfold jsStrOr
  rw [if_pos rfl]

/-- Counterexample to claim C6 as stated: a frontmatter block with zero
recognized `key: value` lines still counts as structured metadata — the flag
is `true`, not `false` — and the body differs from the original content, so
extraction does not proceed as if no block were present. -/
theorem claim6_counterexample :
    parseYamlFrontmatter "---\njunk\n---\nrest" = some ⟨[], "rest"⟩ ∧
      (extractMetadataFromFile ⟨"x.md", "---\njunk\n---\nrest", "2024-01-01"⟩).hasMetadata =
        true ∧
      (extractMetadataFromFile ⟨"x.md", "---\njunk\n---\nrest", "2024-01-01"⟩).body ≠
        "---\njunk\n---\nrest" := by
  refine ⟨by decide, by decide, by decide⟩

/-- Claim C6 amended: a delimited block with zero recognized keys is still
treated as structured metadata (`hasStructuredMetadata` is `true`); since the
parsed mapping is empty, every field resolution falls back exactly as with no
metadata (no description, source repo, prerequisites or last-updated field;
title from the body's first heading or the filename; date from the filename
or the file mtime; tags inferred), and the body is the content with the block
removed, except that an empty remainder falls back to the comment-parse body
or to the whole content. -/
theorem claim6_empty_block (file : RawFile) (fm : Frontmatter)
    (hy : parseYamlFrontmatter file.content = some fm) (hd : fm.data = []) :
    (extractMetadataFromFile file).hasMetadata = true ∧
      (extractMetadataFromFile file).body =
        jsStrOr fm.body
          (jsStrOr (match parseCommentMetadata file.content with
            | some c => c.body
            | none => "") file.content) ∧
      (extractMetadataFromFile file).postData.title =
        jsStrOr
          (optStr (extractTitle (jsStrOr fm.body
            (jsStrOr (match parseCommentMetadata file.content with
              | some c => c.body
              | none => "") file.content))))
          (formatTitle (dashesToSpaces (stripMd (removeDatePrefix file.filename)))) ∧
      (extractMetadataFromFile file).postData.date =
        jsStrOr (optStr (extractDateFromFilename file.filename)) file.mtimeDate ∧
      (extractMetadataFromFile file).postData.tags =
        some (((inferTags file.content
            (jsStrOr
              (optStr (extractTitle (jsStrOr fm.body
                (jsStrOr (match parseCommentMetadata file.content with
                  | some c => c.body
                  | none => "") file.content))))
              (formatTitle (dashesToSpaces (stripMd (removeDatePrefix file.filename)))))).map
          underscoresToDashes).take 5) ∧
      (extractMetadataFromFile file).postData.description = none ∧
      (extractMetadataFromFile file).postData.sourceRepo = none ∧
      (extractMetadataFromFile file).postData.prerequisites = none ∧
      (extractMetadataFromFile file).postData.lastUpdated = none := by
  unfold extractMetadataFromFile
  simp only [hy, hd, jget_nil, jgetStr_nil]
  refine ⟨?_, ?_, ?_, ?_, ?_, ?_, ?_, ?_, ?_⟩ <;> trivial

/-- Witness for the amended C6 at the counterexample input. -/
theorem claim6_empty_block_witness :
    (extractMetadataFromFile ⟨"x.md", "---\njunk\n---\nrest", "2024-01-01"⟩).hasMetadata =
      true := by
  exact (claim6_empty_block ⟨"x.md", "---\njunk\n---\nrest", "2024-01-01"⟩ ⟨[], "rest"⟩
    (by decide) (by decide)).1

/-! ### The body of an extraction (claim C8) -/

/-- A successful scan splits the input around the pattern. -/
lemma findSubWith_spec (pat : List Char) (check : List Char → Bool) :
    ∀ (cs b a : List Char), findSubWith pat check cs = some (b, a) →
      cs = b ++ pat ++ a ∧ check a = true := by
  intro cs
  induction cs with
  | nil =>
    intro b a h
    unfold findSubWith at h
    split_ifs at h with hc
    · injection h with h
      rw [Prod.mk.injEq] at h
      obtain ⟨rfl, rfl⟩ := h
      rw [Bool.and_eq_true] at hc
      obtain ⟨hp, hck⟩ := hc
      have : pat = [] := List.prefix_nil.mp (List.isPrefixOf_iff_prefix.mp hp)
      subst this
      exact ⟨rfl, hck⟩
  | cons c rest ih =>
    intro b a h
    unfold findSubWith at h
    split_ifs at h with hc
    · injection h with h
      rw [Prod.mk.injEq] at h
      obtain ⟨rfl, rfl⟩ := h
      rw [Bool.and_eq_true] at hc
      obtain ⟨hp, hck⟩ := hc
      obtain ⟨t, ht⟩ := (List.isPrefixOf_iff_prefix.mp hp)
      refine ⟨?_, hck⟩
      rw [List.nil_append]
      rw [show List.drop pat.length (c :: rest) = t from by rw [← ht, List.drop_left]]
      exact ht.symm
    · rcases hin : findSubWith pat check rest with _ | ba <;> rw [hin] at h
      · exact absurd h (by simp)
      · simp only [Option.map_some'] at h
        injection h with h
        rw [Prod.mk.injEq] at h
        obtain ⟨rfl, rfl⟩ := h
        obtain ⟨hres, hck⟩ := ih ba.1 ba.2 (by rw [hin])
        refine ⟨?_, hck⟩
        simp [hres, List.append_assoc]

/-- The optional trailing newline splits off the scanned suffix. -/
lemma dropOptNewline_spec (cs : List Char) :
    ∃ nl, (nl = [] ∨ nl = ['\n']) ∧ cs = nl ++ dropOptNewline cs := by
  unfold dropOptNewline
  split
  · exact ⟨['\n'], Or.inr rfl, rfl⟩
  · exact ⟨[], Or.inl rfl, rfl⟩

/-- A match of the plain frontmatter pattern decomposes the content into the
opening delimiter, the block, the closing delimiter, an optional newline and
the body. -/
lemma yamlPattern1_spec {cs inner body : List Char}
    (h : yamlPattern1 cs = some (inner, body)) :
    ∃ nl, (nl = [] ∨ nl = ['\n']) ∧
      cs = "---\n".data ++ inner ++ "\n---".data ++ nl ++ body := by
  unfold yamlPattern1 at h
  split_ifs at h with hp
  rcases hf : findSubWith ("\n---".data) (fun _ => true) (cs.drop 4) with _ | ia <;>
      rw [hf] at h
  · exact absurd h (by simp)
  · injection h with h
    rw [Prod.mk.injEq] at h
    obtain ⟨h1, hbody⟩ := h
    obtain ⟨hsplit, _⟩ := findSubWith_spec _ _ _ _ _ hf
    obtain ⟨t, ht⟩ := List.isPrefixOf_iff_prefix.mp hp
    have hlen : ("---\n".data).length = 4 := rfl
    have hts : t = cs.drop 4 := by
      rw [← ht, ← hlen, List.drop_left]
    obtain ⟨nl, hnl, hdec⟩ := dropOptNewline_spec ia.2
    rw [hbody] at hdec
    refine ⟨nl, hnl, ?_⟩
    have hT : t = ia.1 ++ "\n---".data ++ ia.2 := hts.trans hsplit
    rw [← ht, hT, ← h1, hdec]
    simp [List.append_assoc]

/-- Whitespace taken by `dropWhile` is whitespace. -/
lemma takeWhile_ws_all (cs : List Char) :
    (cs.takeWhile Char.isWhitespace).all Char.isWhitespace = true := by
  rw [List.all_eq_true]
  intro c hc
  exact List.mem_takeWhile_imp hc

/-- A match of the comment-wrapped frontmatter pattern decomposes the content
into the comment opener, whitespace, the delimiters and block, whitespace,
the comment closer, an optional newline and the body. -/
lemma yamlPattern2_spec {cs inner body : List Char}
    (h : yamlPattern2 cs = some (inner, body)) :
    ∃ ws1 ws2 nl, ws1.all Char.isWhitespace = true ∧ ws2.all Char.isWhitespace = true ∧
      (nl = [] ∨ nl = ['\n']) ∧
      cs = "<!--".data ++ ws1 ++ "---\n".data ++ inner ++ "\n---".data ++ ws2 ++
        "-->".data ++ nl ++ body := by
  unfold yamlPattern2 at h
  split_ifs at h with hp1
  dsimp only at h
  split_ifs at h with hp2
  rcases hf : findSubWith ("\n---".data)
      (fun a => ("-->".data).isPrefixOf (a.dropWhile Char.isWhitespace))
      (((cs.drop 4).dropWhile Char.isWhitespace).drop 4) with _ | ia <;>
      rw [hf] at h
  · exact absurd h (by simp)
  · injection h with h
    rw [Prod.mk.injEq] at h
    obtain ⟨h1, hbody⟩ := h
    obtain ⟨hsplit, hck⟩ := findSubWith_spec _ _ _ _ _ hf
    obtain ⟨t, ht⟩ := List.isPrefixOf_iff_prefix.mp hp1
    have hlen : ("<!--".data).length = 4 := rfl
    have hts : t = cs.drop 4 := by
      rw [← ht, ← hlen, List.drop_left]
    obtain ⟨t2, ht2⟩ := List.isPrefixOf_iff_prefix.mp hp2
    have hlen2 : ("---\n".data).length = 4 := rfl
    have hts2 : t2 = ((cs.drop 4).dropWhile Char.isWhitespace).drop 4 := by
      rw [← ht2, ← hlen2, List.drop_left]
    obtain ⟨t3, ht3⟩ := List.isPrefixOf_iff_prefix.mp hck
    have hlen3 : ("-->".data).length = 3 := rfl
    have hts3 : t3 = (ia.2.dropWhile Char.isWhitespace).drop 3 := by
      rw [← ht3, ← hlen3, List.drop_left]
    obtain ⟨nl, hnl, hdec⟩ := dropOptNewline_spec ((ia.2.dropWhile Char.isWhitespace).drop 3)
    rw [hbody] at hdec
    have e1 : t3 = nl ++ body := hts3.trans hdec
    have e2 : ia.2.dropWhile Char.isWhitespace = "-->".data ++ (nl ++ body) := by
      rw [← ht3, e1]
    have e3 : ia.2 = ia.2.takeWhile Char.isWhitespace ++ ("-->".data ++ (nl ++ body)) := by
      rw [← e2, List.takeWhile_append_dropWhile]
    have e4 : t2 = ia.1 ++ "\n---".data ++ ia.2 := hts2.trans hsplit
    have e5 : (cs.drop 4).dropWhile Char.isWhitespace =
        "---\n".data ++ (ia.1 ++ "\n---".data ++ ia.2) := by
      rw [← ht2, e4]
    have e6 : cs.drop 4 = (cs.drop 4).takeWhile Char.isWhitespace ++
        ("---\n".data ++ (ia.1 ++ "\n---".data ++ ia.2)) := by
      rw [← e5, List.takeWhile_append_dropWhile]
    have e7 : cs = "<!--".data ++ cs.drop 4 := by
      conv_lhs => rw [← ht]
      rw [hts]
    refine ⟨(cs.drop 4).takeWhile Char.isWhitespace, ia.2.takeWhile Char.isWhitespace, nl,
      takeWhile_ws_all _, takeWhile_ws_all _, hnl, ?_⟩
    rw [← h1]
    conv_lhs => rw [e7, e6, e3]
    simp [List.append_assoc]

/-- Membership in the collected index list of `parseCommentMetadata`. -/
lemma mem_idxFold :
    ∀ (es : List (Nat × String)) (init : List Nat) (x : Nat),
      (x ∈ es.foldl
          (fun acc il =>
            (acc ++ (if (commentMetaKV il.2).isSome then [il.1] else [])) ++
              (if commentSepLine il.2 then [il.1] else [])) init) ↔
        x ∈ init ∨ ∃ il ∈ es, il.1 = x ∧
          ((commentMetaKV il.2).isSome = true ∨ commentSepLine il.2 = true) := by
  intro es
  induction es with
  | nil =>
    intro init x
    simp
  | cons e t ih =>
    intro init x
    rw [List.foldl_cons, ih]
    constructor
    · rintro (hin | ⟨il, hmem, hx, hcond⟩)
      · rcases List.mem_append.mp hin with hin2 | hsep
        · rcases List.mem_append.mp hin2 with hini | hmeta
          · exact Or.inl hini
          · refine Or.inr ⟨e, List.mem_cons_self _ _, ?_, ?_⟩
            · by_cases hc : (commentMetaKV e.2).isSome
              · rw [if_pos hc] at hmeta
                simp at hmeta
                omega
              · rw [if_neg hc] at hmeta
                simp at hmeta
            · by_cases hc : (commentMetaKV e.2).isSome
              · exact Or.inl hc
              · rw [if_neg hc] at hmeta
                simp at hmeta
        · refine Or.inr ⟨e, List.mem_cons_self _ _, ?_, ?_⟩
          · by_cases hc : commentSepLine e.2
            · rw [if_pos hc] at hsep
              simp at hsep
              omega
            · rw [if_neg hc] at hsep
              simp at hsep
          · by_cases hc : commentSepLine e.2
            · exact Or.inr hc
            · rw [if_neg hc] at hsep
              simp at hsep
      · exact Or.inr ⟨il, List.mem_cons_of_mem _ hmem, hx, hcond⟩
    · rintro (hini | ⟨il, hmem, hx, hcond⟩)
      · exact Or.inl (List.mem_append.mpr (Or.inl (List.mem_append.mpr (Or.inl hini))))
      · rcases List.mem_cons.mp hmem with rfl | hmem
        · rcases hcond with hc | hc
          · refine Or.inl (List.mem_append.mpr (Or.inl (List.mem_append.mpr (Or.inr ?_))))
            rw [if_pos hc]
            simp [hx]
          · refine Or.inl (List.mem_append.mpr (Or.inr ?_))
            rw [if_pos hc]
            simp [hx]
        · exact Or.inr ⟨il, hmem, hx, hcond⟩

/-- Indices in an enumeration from `n` are at least `n`. -/
lemma enumFrom_fst_ge :
    ∀ (l : List String) (n : Nat) (il : Nat × String), il ∈ List.enumFrom n l → n ≤ il.1 := by
  intro l
  induction l with
  | nil =>
    intro n il h
    simp at h
  | cons a t ih =>
    intro n il h
    rcases List.mem_cons.mp h with rfl | h
    · exact le_refl _
    · have := ih (n + 1) il h
      omega

/-- The index-based line filter of `parseCommentMetadata` equals the
per-line predicate filter. -/
lemma enumFilter_pred :
    ∀ (lines : List String) (n : Nat),
      ((List.enumFrom n lines).filter
          (fun il => decide (il.1 ∉
            (List.enumFrom n lines).foldl
              (fun acc il =>
            (acc ++ (if (commentMetaKV il.2).isSome then [il.1] else [])) ++
              (if commentSepLine il.2 then [il.1] else [])) []))).map (fun x => x.2) =
        lines.filter (fun l => ¬ (commentMetaKV l).isSome ∧ ¬ commentSepLine l) := by
  intro lines
  induction lines with
  | nil =>
    intro n
    rfl
  | cons a t ih =>
    intro n
    have hA : ((n : Nat) ∈ (((n, a) :: List.enumFrom (n + 1) t).foldl
          (fun acc il =>
            (acc ++ (if (commentMetaKV il.2).isSome then [il.1] else [])) ++
              (if commentSepLine il.2 then [il.1] else [])) [])) ↔
        ((commentMetaKV a).isSome = true ∨ commentSepLine a = true) := by
      rw [mem_idxFold]
      constructor
      · rintro (hini | ⟨il, hmem, hx, hcond⟩)
        · simp at hini
        · rcases List.mem_cons.mp hmem with rfl | hmem
          · exact hcond
          · have := enumFrom_fst_ge t (n + 1) il hmem
            omega
      · intro hcond
        exact Or.inr ⟨(n, a), List.mem_cons_self _ _, rfl, hcond⟩
    have hB : ∀ il ∈ List.enumFrom (n + 1) t,
        ((il.1 ∈ (((n, a) :: List.enumFrom (n + 1) t).foldl
          (fun acc il =>
            (acc ++ (if (commentMetaKV il.2).isSome then [il.1] else [])) ++
              (if commentSepLine il.2 then [il.1] else [])) [])) ↔ (il.1 ∈ ((List.enumFrom (n + 1) t).foldl
          (fun acc il =>
            (acc ++ (if (commentMetaKV il.2).isSome then [il.1] else [])) ++
              (if commentSepLine il.2 then [il.1] else [])) []))) := by
      intro il hmem
      have hge := enumFrom_fst_ge t (n + 1) il hmem
      rw [mem_idxFold, mem_idxFold]
      constructor
      · rintro (hini | ⟨il2, hmem2, hx2, hcond2⟩)
        · simp at hini
        · rcases List.mem_cons.mp hmem2 with rfl | hmem2
          · omega
          · exact Or.inr ⟨il2, hmem2, hx2, hcond2⟩
      · rintro (hini | ⟨il2, hmem2, hx2, hcond2⟩)
        · simp at hini
        · exact Or.inr ⟨il2, List.mem_cons_of_mem _ hmem2, hx2, hcond2⟩
    rw [show List.enumFrom n (a :: t) = (n, a) :: List.enumFrom (n + 1) t from rfl]
    rw [List.filter_cons, List.filter_cons]
    have hcongr : List.filter (fun il => decide (il.1 ∉ (((n, a) :: List.enumFrom (n + 1) t).foldl
          (fun acc il =>
            (acc ++ (if (commentMetaKV il.2).isSome then [il.1] else [])) ++
              (if commentSepLine il.2 then [il.1] else [])) [])))
        (List.enumFrom (n + 1) t) =
        List.filter (fun il => decide (il.1 ∉ ((List.enumFrom (n + 1) t).foldl
          (fun acc il =>
            (acc ++ (if (commentMetaKV il.2).isSome then [il.1] else [])) ++
              (if commentSepLine il.2 then [il.1] else [])) [])))
          (List.enumFrom (n + 1) t) := by
      refine List.filter_congr ?_
      intro il hmem
      rw [decide_eq_decide]
      exact not_congr (hB il hmem)
    by_cases hca : (commentMetaKV a).isSome = true ∨ commentSepLine a = true
    · have h1 : decide (((n, a) : Nat × String).1 ∉ (((n, a) :: List.enumFrom (n + 1) t).foldl
          (fun acc il =>
            (acc ++ (if (commentMetaKV il.2).isSome then [il.1] else [])) ++
              (if commentSepLine il.2 then [il.1] else [])) [])) = false := by
        rw [decide_eq_false_iff_not]
        intro hnot
        exact hnot (hA.mpr hca)
      have h2 : decide (¬ (commentMetaKV a).isSome = true ∧ ¬ commentSepLine a = true) =
          false := by
        rw [decide_eq_false_iff_not]
        intro hnot
        rcases hca with hc | hc
        · exact hnot.1 hc
        · exact hnot.2 hc
      rw [h1, h2]
      simp only [Bool.false_eq_true, if_false]
      rw [hcongr]
      exact ih (n + 1)
    · have h1 : decide (((n, a) : Nat × String).1 ∉ (((n, a) :: List.enumFrom (n + 1) t).foldl
          (fun acc il =>
            (acc ++ (if (commentMetaKV il.2).isSome then [il.1] else [])) ++
              (if commentSepLine il.2 then [il.1] else [])) [])) = true := by
        rw [decide_eq_true_eq]
        intro hmem
        exact hca (hA.mp hmem)
      have h2 : decide (¬ (commentMetaKV a).isSome = true ∧ ¬ commentSepLine a = true) =
          true := by
        rw [decide_eq_true_eq]
        push_neg at hca
        exact ⟨fun hc => hca.1 hc, fun hc => hca.2 hc⟩
      rw [h1, h2]
      simp only [if_true]
      rw [List.map_cons]
      rw [hcongr]
      rw [ih (n + 1)]
lemma parseCommentMetadata_body {content : String} {cm : CommentMeta}
    (h : parseCommentMetadata content = some cm) :
    cm.body = joinChar '\n' ((strLines content).filter
      (fun l => ¬ (commentMetaKV l).isSome ∧ ¬ commentSepLine l)) := by
  unfold parseCommentMetadata at h
  dsimp only at h
  split_ifs at h with hc
  injection h with h
  subst h
  dsimp only
  rw [show (strLines content).enum = List.enumFrom 0 (strLines content) from rfl]
  rw [enumFilter_pred (strLines content) 0]
/-- C8 (counterexample): for the content `"---\ntitle: T\n---"` a frontmatter
block matches and removing it leaves an empty body, yet the extraction
result's `body` is the whole original content, not the empty string: the
string-truthiness fallback chain over the yaml body, the comment body and the
content reinstates the full content when the stripped body is empty. -/
theorem claim8_counterexample :
    (parseYamlFrontmatter "---\ntitle: T\n---").map Frontmatter.body = some "" ∧
    (extractMetadataFromFile ⟨"x.md", "---\ntitle: T\n---", "2024-01-01"⟩).body =
      "---\ntitle: T\n---" := by
  decide

/-- C8 (amended): when a frontmatter block matches, the parse's `body` is the
content with exactly the delimited block removed (the content reconstructs as
the block followed by the body), and the extraction result exposes that body
whenever it is nonempty; when no frontmatter matches but comment metadata
does, the parse's `body` is the content with exactly the matched metadata
lines removed, and the extraction result exposes it whenever nonempty. When
the remaining body is empty the extraction result falls back to the original
content (see the counterexample), so the nonemptiness hypotheses are needed. -/
theorem claim8_body (file : RawFile) :
    (∀ fm, parseYamlFrontmatter file.content = some fm →
      (∃ inner nl, (nl = [] ∨ nl = ['\n']) ∧
        (file.content.data =
            "---\n".data ++ inner ++ "\n---".data ++ nl ++ fm.body.data ∨
          ∃ ws1 ws2, ws1.all Char.isWhitespace = true ∧
            ws2.all Char.isWhitespace = true ∧
            file.content.data = "<!--".data ++ ws1 ++ "---\n".data ++ inner ++
              "\n---".data ++ ws2 ++ "-->".data ++ nl ++ fm.body.data)) ∧
      (fm.body ≠ "" → (extractMetadataFromFile file).body = fm.body)) ∧
    (parseYamlFrontmatter file.content = none →
      ∀ cm, parseCommentMetadata file.content = some cm →
        cm.body = joinChar '\n' ((strLines file.content).filter
          (fun l => ¬ (commentMetaKV l).isSome ∧ ¬ commentSepLine l)) ∧
        (cm.body ≠ "" → (extractMetadataFromFile file).body = cm.body)) := by
  constructor
  · intro fm hy
    constructor
    · unfold parseYamlFrontmatter at hy
      rcases h1 : yamlPattern1 file.content.data with _ | ⟨inner, bodyL⟩ <;>
          rw [h1] at hy
      · rcases h2 : yamlPattern2 file.content.data with _ | ⟨inner, bodyL⟩ <;>
            rw [h2] at hy
        · dsimp only at hy
          exact Option.noConfusion hy
        · dsimp only at hy
          injection hy with hy
          obtain ⟨ws1, ws2, nl, hw1, hw2, hnl, hsplit⟩ := yamlPattern2_spec h2
          refine ⟨inner, nl, hnl, Or.inr ⟨ws1, ws2, hw1, hw2, ?_⟩⟩
          rw [← hy]
          exact hsplit
      · dsimp only at hy
        injection hy with hy
        obtain ⟨nl, hnl, hsplit⟩ := yamlPattern1_spec h1
        refine ⟨inner, nl, hnl, Or.inl ?_⟩
        rw [← hy]
        exact hsplit
    · intro hne
      unfold extractMetadataFromFile
      dsimp only
      rw [hy]
      dsimp only
      unfold jsStrOr
      rw [if_neg hne]
  · intro hyn cm hc
    refine ⟨parseCommentMetadata_body hc, ?_⟩
    intro hne
    unfold extractMetadataFromFile
    dsimp only
    rw [hyn, hc]
    dsimp only
    unfold jsStrOr
    rw [if_pos rfl, if_neg hne]

/-- C8 witness: concrete frontmatter and comment-metadata files on which the
extraction body is exactly the content with the block (respectively the
metadata lines) removed. -/
theorem claim8_body_witness :
    (extractMetadataFromFile ⟨"a.md", "---\ntitle: T\n---\nBody", "2024-01-01"⟩).body
        = "Body" ∧
    (extractMetadataFromFile ⟨"b.md", "// title: T\nBody2", "2024-01-01"⟩).body
        = "Body2" :=
  ⟨((claim8_body ⟨"a.md", "---\ntitle: T\n---\nBody", "2024-01-01"⟩).1
      ⟨[("title", JVal.jstr "T")], "Body"⟩ (by decide)).2 (by decide),
   ((claim8_body ⟨"b.md", "// title: T\nBody2", "2024-01-01"⟩).2 (by decide)
      ⟨[("title", JVal.jstr "T")], "Body2", [0]⟩ (by decide)).2 (by decide)⟩
/-- C7 (refuted, code bug): slug uniqueness of the written manifest fails.
The files `2024-05-05-foo.md` and `foo.md` both match the prior entry with
slug `foo` (date-prefix removal makes their candidate slugs collide), the
reuse branch aliases both processed posts to that one entry, and the manifest
written at the end of the run holds the slug `foo` twice. -/
theorem claim7_counterexample :
    (syncRun cfgDefault filesFoo [eFoo]).manifest = [eFoo, eFoo] ∧
    ¬ ((syncRun cfgDefault filesFoo [eFoo]).manifest.map Post.slug).Nodup := by
  decide
/-- Without renames (`needsRename` false everywhere, default flags), the apply
loop changes neither the directory nor the assignment list. -/
lemma applyLoop_noop (cfg : Config) (hnr : cfg.noRename = false)
    (hsm : cfg.stripMeta = false) :
    ∀ (ps : List (Nat × ProcessedPost)) (fs : List RawFile)
      (assigns : List (SlugRef × String)),
      (∀ ip ∈ ps, ip.2.needsRename = false) →
      applyLoop cfg ps fs assigns = (fs, assigns) := by
  intro ps
  induction ps with
  | nil =>
    intro fs assigns _
    rfl
  | cons ip rest ih =>
    intro fs assigns hall
    obtain ⟨i, p⟩ := ip
    have hp : p.needsRename = false := hall (i, p) (List.mem_cons_self _ _)
    unfold applyLoop
    rw [hp, hnr, hsm]
    dsimp only
    exact ih fs assigns (fun x hx => hall x (List.mem_cons_of_mem _ hx))

/-- Enumerating and then projecting away the index is projecting alone. -/
lemma enumFrom_map_snd_comp {α β : Type} (f : α → β) :
    ∀ (l : List α) (n : Nat),
      (List.enumFrom n l).map (fun ip => f ip.2) = l.map f := by
  intro l
  induction l with
  | nil =>
    intro n
    rfl
  | cons a t ih =>
    intro n
    simp only [List.enumFrom, List.map_cons]
    rw [ih]

/-- The value part of an enumerated-list member is a member. -/
lemma snd_mem_of_mem_enumFrom {α : Type} :
    ∀ (l : List α) (n : Nat) (ip : Nat × α), ip ∈ List.enumFrom n l → ip.2 ∈ l := by
  intro l
  induction l with
  | nil =>
    intro n ip h
    simp at h
  | cons a t ih =>
    intro n ip h
    rcases List.mem_cons.mp h with rfl | h
    · exact List.mem_cons_self _ _
    · exact List.mem_cons_of_mem _ (ih (n + 1) ip h)

/-- With no recorded slug assignments the final-post construction is the
plain post-data projection. -/
lemma enum_map_final (l : List ProcessedPost) :
    (l.enum).map (fun ip =>
      { ip.2.postData with
        slug := finalSlug [] (refOf ip.1 ip.2) ip.2.postData.slug }) =
      l.map (fun p => p.postData) := by
  have h1 : (fun ip : Nat × ProcessedPost =>
      { ip.2.postData with
        slug := finalSlug [] (refOf ip.1 ip.2) ip.2.postData.slug }) =
      fun ip : Nat × ProcessedPost => ip.2.postData := funext (fun ip => rfl)
  rw [h1]
  exact enumFrom_map_snd_comp (fun p => p.postData) l 0

/-- C4 (counterexample): a second run on the exact output of a first run can
still flag a rename. The first run on `filesFoo` with prior `[eFoo]` leaves
the directory unchanged (the rename of `foo.md` is skipped because the target
name is already taken) and writes the manifest `[eFoo, eFoo]`; processing the
same files against that manifest again still computes `needsRename = true`
for `foo.md`, so the claimed no-rename second run fails. -/
theorem claim4_counterexample :
    (syncRun cfgDefault filesFoo [eFoo]).files = filesFoo ∧
    (syncRun cfgDefault filesFoo [eFoo]).manifest = [eFoo, eFoo] ∧
    (filesFoo.filter (fun f => strEndsWith f.filename ".md")).map
        (fun f => (processPost cfgDefault
          (manifestLookup (syncRun cfgDefault filesFoo [eFoo]).manifest)
          f).needsRename) = [false, true] := by
  decide

/-- C4 (amended): the sync is idempotent on canonical states. If every
markdown file finds its manifest entry, no found entry has a missing required
field, every filename already is the canonical date-slugBase name derived
from its entry, and the manifest is the topologically sorted list of those
entries, then a default-flag run returns the directory and the manifest
unchanged — in particular a second run on such a first run's output
reproduces it exactly. -/
theorem claim4_idempotence (files : List RawFile) (M : List Post)
    (entOf : RawFile → Post) (sOf : RawFile → String)
    (hmd : files.filter (fun f => strEndsWith f.filename ".md") ≠ [])
    (hfind : ∀ f ∈ files.filter (fun f => strEndsWith f.filename ".md"),
      findExistingEntry (manifestLookup M) f.filename = some (sOf f, entOf f))
    (hmiss : ∀ f ∈ files.filter (fun f => strEndsWith f.filename ".md"),
      hasMissingFields (entOf f) = false)
    (hcanon : ∀ f ∈ files.filter (fun f => strEndsWith f.filename ".md"),
      ((entOf f).date.getD "undefined") ++ "-" ++
        removeDatePrefix (stripMd f.filename) ++ ".md" = f.filename)
    (hM : M = sortPostsTopologically
      ((files.filter (fun f => strEndsWith f.filename ".md")).map entOf)) :
    syncRun cfgDefault files M = ⟨files, M, true⟩ := by
  have hforce : cfgDefault.force = false := rfl
  have hdry : cfgDefault.dryRun = false := rfl
  have hnr : cfgDefault.noRename = false := rfl
  have hsm : cfgDefault.stripMeta = false := rfl
  have hrename : ∀ f ∈ files.filter (fun f => strEndsWith f.filename ".md"),
      (processPost cfgDefault (manifestLookup M) f).needsRename = false := by
    intro f hf
    unfold processPost
    dsimp only
    rw [hfind f hf]
    dsimp only
    rw [hforce]
    simp only [Bool.false_or]
    rw [hmiss f hf]
    simp only [Bool.false_eq_true, if_false]
    rcases hdt : (entOf f).date with _ | d <;> dsimp only
    · have hc := hcanon f hf
      rw [hdt] at hc
      simp only [Option.getD_none] at hc
      rw [hc]
      simp
    · have hc := hcanon f hf
      rw [hdt] at hc
      simp only [Option.getD_some] at hc
      rw [hc]
      simp
  have hdata : ∀ f ∈ files.filter (fun f => strEndsWith f.filename ".md"),
      (processPost cfgDefault (manifestLookup M) f).postData = entOf f := by
    intro f hf
    unfold processPost
    dsimp only
    rw [hfind f hf]
    dsimp only
    rw [hforce]
    simp only [Bool.false_or]
    rw [hmiss f hf]
    simp only [Bool.false_eq_true, if_false]
  have hmdne : (files.filter (fun f => strEndsWith f.filename ".md")).isEmpty
      = false := by
    rcases hh : files.filter (fun f => strEndsWith f.filename ".md") with _ | ⟨a, t⟩
    · exact absurd hh hmd
    · rw [hh]
      rfl
  have hall : ∀ ip ∈ (List.map (processPost cfgDefault (manifestLookup M))
      (files.filter (fun f => strEndsWith f.filename ".md"))).enum,
      ip.2.needsRename = false := by
    intro ip hip
    have h2 : ip.2 ∈ List.map (processPost cfgDefault (manifestLookup M))
        (files.filter (fun f => strEndsWith f.filename ".md")) :=
      snd_mem_of_mem_enumFrom _ 0 ip hip
    obtain ⟨f, hf, hfe⟩ := List.mem_map.mp h2
    rw [← hfe]
    exact hrename f hf
  unfold syncRun
  dsimp only
  rw [hforce, hdry, hmdne]
  simp only [Bool.false_eq_true, if_false]
  rw [applyLoop_noop cfgDefault hnr hsm _ files [] hall]
  dsimp only
  rw [enum_map_final]
  rw [List.map_map]
  have hmap : (files.filter (fun f => strEndsWith f.filename ".md")).map
      ((fun p => p.postData) ∘ processPost cfgDefault (manifestLookup M)) =
      (files.filter (fun f => strEndsWith f.filename ".md")).map entOf := by
    refine List.map_congr_left ?_
    intro f hf
    simp only [Function.comp_apply]
    exact hdata f hf
  rw [hmap, ← hM]

/-- C4 witness: one canonically named file with a complete matching entry and
the sorted one-entry manifest; the run returns both unchanged. -/
theorem claim4_idempotence_witness :
    syncRun cfgDefault [⟨"2024-05-05-foo.md", "b", "2024-01-01"⟩] [eFoo] =
      ⟨[⟨"2024-05-05-foo.md", "b", "2024-01-01"⟩], [eFoo], true⟩ :=
  claim4_idempotence _ _ (fun _ => eFoo) (fun _ => "foo") (by decide) (by decide)
    (by decide) (by decide) (by decide)
